import Mathlib

/-!
# SortMeRNA reads-file reader (`src/sortmerna/reader.cpp`)

A shallow embedding of `Reader::nextread` (sequential traversal) and
`Reader::loadReadByIdx` (random access by index) together with the
properties of the record-assembly state machine.

Conventions of the embedding

* A `std::string` is a `List Char`; a line is one string.
* The line supplier `Gzip::getline` is a collaborator that is not part of
  `reader.cpp`; it is modelled by the list of the lines that are still to be
  delivered (`RL_END` is the empty list).  Such a source never reports
  `RL_ERR`, so the two `exit` paths of the source are not reachable and are
  not represented.
* The counters are declared in `reader.hpp`, which is not part of the
  sources at hand; `line_count`, `read_count`, `read_id` are natural
  numbers, the `int` loop variable `count` is an integer (it is decremented
  on blank lines).
-/

namespace Sortmerna

/-- One physical line of the reads file (a `std::string`). -/
abbrev Line := List Char

/-- The marker of a FASTA header line. -/
def FASTA_HEADER_START : Char := '>'

/-- The marker of a FASTQ header line. -/
def FASTQ_HEADER_START : Char := '@'

/-- The predicate `std::isspace(ch, std::locale{})` in the classic locale:
space, `\t`, `\n`, `\v`, `\f`, `\r`. -/
def isspace (ch : Char) : Bool :=
  ch == ' ' || ch == '\t' || ch == '\n' || ch == Char.ofNat 11 || ch == Char.ofNat 12 || ch == '\r'

/-- The right trim of `reader.cpp` lines 69 and 170:
`line.erase(find_if(line.rbegin(), line.rend(), !isspace).base(), line.end())`.
The reverse scan stops at the first character that is not whitespace and
everything behind it is erased. -/
def rtrim (line : Line) : Line :=
  ((line.reverse).dropWhile isspace).reverse

/-- The value of `line[0]`: the first character, and the terminating null
character when the string is empty. -/
def char0 (line : Line) : Char :=
  line.headD (Char.ofNat 0)

/-- The record formats. -/
inductive Format where
  | FASTA
  | FASTQ
  deriving DecidableEq, Repr

/-- The fields of `Read` that `reader.cpp` touches. -/
structure Read where
  id : Nat
  isEmpty : Bool
  format : Format
  header : Line
  sequence : Line
  quality : Line
  deriving DecidableEq, Repr

/-- Modelled from the spec: the class `Read` (read.hpp) is not part of the
sources at hand.  A default-constructed read is the empty record: `is_empty`
is true until a header line has been assigned, and nothing has been
accumulated. -/
def Read.empty : Read :=
  { id := 0, isEmpty := true, format := Format.FASTA, header := [], sequence := [], quality := [] }

/-- Modelled from the spec: `Read::clear` (read.hpp) brings a read back to the
empty record. -/
def Read.clear (_read : Read) : Read :=
  Read.empty

/-- Modelled from the spec: `Read::init(idx, kvdb, opts)` (read.hpp) assigns the
ordinal to the record; the annotations it pulls from the key-value store
are not part of the record fields considered here. -/
def Read.init (read : Read) (idx : Nat) : Read :=
  { read with id := idx }

/-- The state of a `Reader` that lives across calls of `nextread`: the
remaining lines of the stream and the member counters and flags. -/
structure Reader where
  ifs : List Line
  line_count : Nat
  read_count : Nat
  is_done : Bool
  isFastq : Bool
  isFasta : Bool
  deriving DecidableEq, Repr

/-- Modelled from the spec: the member initialisers are in reader.hpp, which
is not part of the sources at hand.  A reader on a freshly opened stream has
both counters at zero and no flag set. -/
def Reader.fresh (lines : List Line) : Reader :=
  { ifs := lines, line_count := 0, read_count := 0, is_done := false,
    isFastq := false, isFasta := false }

/-- The outcome of one pass through the body of the `for` loop of
`nextread`: either the loop goes on (`continue`, or the end of the body, both
followed by `++count`), or it is left by `break`. -/
inductive Step where
  | next (rd : Reader) (read : Read) (count : Int)
  | brk (rd : Reader) (read : Read)

/-- The body of the loop of `Reader::nextread` (lines 139 and 160 to 218) for a
line delivered with status `RL_OK`. `count` is the value of the loop
variable on entry; the count of a `Step.next` is the value after `++count`. -/
def nextreadBody (rd : Reader) (read : Read) (count : Int) (line : Line) : Step :=
  -- ++line_count
  let rd := { rd with line_count := rd.line_count + 1 }
  if line.isEmpty then
    -- --count; --line_count; continue (followed by ++count)
    Step.next { rd with line_count := rd.line_count - 1 } read (count - 1 + 1)
  else
    let line := rtrim line
    let rd :=
      if rd.line_count == 1 then
        { rd with isFastq := char0 line == FASTQ_HEADER_START,
                  isFasta := char0 line == FASTA_HEADER_START }
      else rd
    let count := if count == 4 && rd.isFastq then 0 else count
    if (rd.isFasta && char0 line == FASTA_HEADER_START) || (rd.isFastq && count == 0) then
      if !read.isEmpty then
        -- ++read_count; read.init(read_count, kvdb, opts); break
        Step.brk { rd with read_count := rd.read_count + 1 } (read.init (rd.read_count + 1))
      else
        -- start new record; count = 0
        let read := read.clear
        let read := { read with format := if rd.isFastq then Format.FASTQ else Format.FASTA }
        let read := { read with header := line }
        let read := { read with isEmpty := false }
        Step.next rd read (0 + 1)
    else if rd.isFastq then
      if count == 2 then Step.next rd read (count + 1)
      else if count == 3 then Step.next rd { read with quality := line } (count + 1)
      else Step.next rd { read with sequence := read.sequence ++ line } (count + 1)
    else
      Step.next rd { read with sequence := read.sequence ++ line } (count + 1)

/-- The loop of `Reader::nextread` over the remaining lines of the stream.
On `RL_END` (no line left) `line_count` has been incremented, a record in
progress is given the next ordinal and `is_done` is set. -/
def nextreadLoop (rd : Reader) (read : Read) (count : Int) : List Line → Read × Reader
  | [] =>
    let rd := { rd with line_count := rd.line_count + 1, ifs := [] }
    if !read.isEmpty then
      (read.init (rd.read_count + 1), { rd with read_count := rd.read_count + 1, is_done := true })
    else (read, rd)
  | line :: rest =>
    match nextreadBody rd read count line with
    | Step.next rd1 read1 count1 => nextreadLoop rd1 read1 count1 rest
    | Step.brk rd1 read1 => (read1, { rd1 with ifs := rest })

/-- The function `Reader::nextread`: a new empty read and `count = 0`, then the
loop on the stream of the reader. Returns the read and the reader after the
call. -/
def nextread (rd : Reader) : Read × Reader :=
  nextreadLoop rd Read.empty 0 rd.ifs

/-- Successive calls of `nextread` on one reader: the reads returned by the
first `n` calls, in call order, and the reader after them. -/
def nextreads : Nat → Reader → List Read × Reader
  | 0, rd => ([], rd)
  | n + 1, rd =>
    let r := nextread rd
    let rs := nextreads n r.2
    (r.1 :: rs.1, rs.2)

/-- The local state of the loop of `Reader::loadReadByIdx`. -/
structure LoadState where
  read : Read
  read_id : Nat
  isFastq : Bool
  count : Int
  deriving DecidableEq, Repr

/-- The outcome of one pass through the body of the loop of
`loadReadByIdx`: go on, or `isok = true; break`. -/
inductive LoadStep where
  | next (st : LoadState)
  | ready (st : LoadState)

/-- The body of the loop of `Reader::loadReadByIdx` (lines 67 to 105) for a
line delivered with status `RL_OK`. -/
def loadBody (st : LoadState) (line : Line) : LoadStep :=
  if line.isEmpty then LoadStep.next st
  else
    let line := rtrim line
    if char0 line == FASTA_HEADER_START || char0 line == FASTQ_HEADER_START then
      if !st.read.isEmpty then LoadStep.ready st
      else if st.read_id == st.read.id then
        let isFastq := char0 line == FASTQ_HEADER_START
        let read := { st.read with format := if isFastq then Format.FASTQ else Format.FASTA }
        let read := { read with header := line }
        let read := { read with isEmpty := false }
        LoadStep.next { st with isFastq := isFastq, read := read }
      else
        LoadStep.next { st with read_id := st.read_id + 1, count := 0 }
    else if !st.read.isEmpty then
      if st.isFastq then
        let st := { st with count := st.count + 1 }
        if char0 line == '+' then LoadStep.next st
        else if st.count == 3 then
          LoadStep.next { st with read := { st.read with quality := line } }
        else
          LoadStep.next { st with read := { st.read with sequence := st.read.sequence ++ line } }
      else
        LoadStep.next { st with read := { st.read with sequence := st.read.sequence ++ line } }
    else LoadStep.next st

/-- The loop of `Reader::loadReadByIdx` over the lines of the reads file;
returns `isok` and the read as the call leaves it. -/
def loadLoop (st : LoadState) : List Line → Bool × Read
  | [] => (false, st.read)
  | line :: rest =>
    match loadBody st line with
    | LoadStep.next st1 => loadLoop st1 rest
    | LoadStep.ready st1 => (true, st1.read)

/-- The function `Reader::loadReadByIdx` on the lines of `opts.readsfile`: the
file is scanned from its start with `read_id = 0`, `isFastq = true` and
`count = 0`. Returns `isok` and the read (passed by reference). -/
def loadReadByIdx (file : List Line) (read : Read) : Bool × Read :=
  loadLoop { read := read, read_id := 0, isFastq := true, count := 0 } file

/-- An empty read carrying the index `k` to look for. -/
def Read.target (k : Nat) : Read :=
  { Read.empty with id := k }

/-- The member counters and flags of a reader, without its stream. -/
def Reader.counters (rd : Reader) : Nat × Nat × Bool × Bool × Bool :=
  (rd.line_count, rd.read_count, rd.is_done, rd.isFastq, rd.isFasta)

/-- The list `l'` is the list `l` with empty (zero-length) lines inserted at
any positions: in front, between two lines, at the end. -/
inductive BlankInserted : List Line → List Line → Prop where
  | nil : BlankInserted [] []
  | keep (x : Line) {l l' : List Line} : BlankInserted l l' → BlankInserted (x :: l) (x :: l')
  | blank {l l' : List Line} : BlankInserted l l' → BlankInserted l ([] :: l')

/-- The line `y` is the line `x` itself, or `x` holds a character that is not
whitespace and `y` is `x` followed by whitespace characters. -/
def TrailingWs (x y : Line) : Prop :=
  y = x ∨ ((∃ c ∈ x, isspace c = false) ∧
    ∃ ws : List Char, (∀ c ∈ ws, isspace c = true) ∧ y = x ++ ws)

/-- A header line as `loadReadByIdx` tells it: a line whose first character
is `>` or `@` (an empty line is none). -/
def isHeaderLine (line : Line) : Bool :=
  char0 line == FASTA_HEADER_START || char0 line == FASTQ_HEADER_START

/-- The lines of a FASTA file given by its records: each record is its
header line followed by its sequence lines. -/
def fastaFile : List (Line × List Line) → List Line
  | [] => []
  | r :: t => r.1 :: (r.2 ++ fastaFile t)

/-- The read that stands for a FASTA record of the file: the trimmed header,
the trimmed sequence lines concatenated in order, no quality, and the given
ordinal. -/
def recordRead (ordinal : Nat) (r : Line × List Line) : Read :=
  { id := ordinal, isEmpty := false, format := Format.FASTA, header := rtrim r.1,
    sequence := (r.2.map rtrim).flatten, quality := [] }

/-- The reader has seen a first line starting with `>`: FASTA mode is on, FASTQ
mode is off and `line_count` is past the first line. -/
def FastaMode (rd : Reader) : Prop :=
  rd.isFasta = true ∧ rd.isFastq = false ∧ rd.line_count ≠ 0

/-- Three FASTA records: `>r1 / AC / GT`, `>r2 / TT`, `>r3 / GG`. -/
def fastaThree : List (Line × List Line) :=
  [(">r1".toList, ["AC".toList, "GT".toList]), (">r2".toList, ["TT".toList]),
   (">r3".toList, ["GG".toList])]

/-- The two-record FASTA file `>r1 / ACGT / >r2 / TTTT`. -/
def fastaTwo : List Line :=
  [">r1".toList, "ACGT".toList, ">r2".toList, "TTTT".toList]

/-- The five lines `>r1 / ACGT / ACGT / >r2 / TTTT`. -/
def fastaFive : List Line :=
  [">r1".toList, "ACGT".toList, "ACGT".toList, ">r2".toList, "TTTT".toList]

/-- The two-record FASTQ file `@r1 / ACGT / + / FFFF / @r2 / TTTT / + / GGGG`. -/
def fastqTwo : List Line :=
  ["@r1".toList, "ACGT".toList, "+".toList, "FFFF".toList,
   "@r2".toList, "TTTT".toList, "+".toList, "GGGG".toList]

/-- A non-empty record with the given ordinal, format, header, sequence and
quality. -/
def Read.mk1 (id : Nat) (format : Format) (header sequence quality : String) : Read :=
  { id := id, isEmpty := false, format := format, header := header.toList,
    sequence := sequence.toList, quality := quality.toList }

/-! ## Properties -/

/-! ### The right trim -/

theorem dropWhile_append_of_all {p : Char → Bool} (a b : List Char)
    (h : ∀ c ∈ a, p c = true) : (a ++ b).dropWhile p = b.dropWhile p := by
  induction a with
  | nil => rfl
  | cons x t ih =>
    have hx : p x = true := h x (List.mem_cons_self x t)
    have ht : ∀ c ∈ t, p c = true := fun c hc => h c (List.mem_cons_of_mem x hc)
    simp [List.dropWhile, hx, ih ht]

theorem rtrim_append_ws (x ws : List Char) (h : ∀ c ∈ ws, isspace c = true) :
    rtrim (x ++ ws) = rtrim x := by
  unfold rtrim
  rw [List.reverse_append, dropWhile_append_of_all]
  intro c hc
  exact h c (List.mem_reverse.mp hc)

theorem rtrim_eq_rdropWhile (l : List Char) : rtrim l = l.rdropWhile isspace := rfl

theorem rtrim_cons_of_not_space (a : Char) (t : List Char) (ha : isspace a = false) :
    ∃ u, rtrim (a :: t) = a :: u := by
  obtain ⟨ws, hws⟩ := List.rdropWhile_prefix isspace (a :: t)
  rw [← rtrim_eq_rdropWhile] at hws
  cases hr : rtrim (a :: t) with
  | nil =>
    rw [rtrim_eq_rdropWhile, List.rdropWhile_eq_nil_iff] at hr
    have := hr a (List.mem_cons_self a t)
    rw [ha] at this
    exact absurd this (by decide)
  | cons b u =>
    rw [hr] at hws
    have hb : b = a := by
      have h := congrArg List.head? hws
      simpa using h
    exact ⟨u, by rw [hb]⟩

theorem char0_rtrim_cons (a : Char) (t : List Char) (ha : isspace a = false) :
    char0 (rtrim (a :: t)) = a := by
  obtain ⟨u, hu⟩ := rtrim_cons_of_not_space a t ha
  rw [hu]
  rfl

theorem char0_rtrim_eq_iff (l : List Char) (m : Char) (hm : isspace m = false)
    (h0 : m ≠ Char.ofNat 0) : char0 (rtrim l) = m ↔ char0 l = m := by
  constructor
  · intro h
    obtain ⟨ws, hws⟩ := List.rdropWhile_prefix isspace l
    rw [← rtrim_eq_rdropWhile] at hws
    cases hr : rtrim l with
    | nil =>
      rw [hr] at h
      exact absurd h.symm h0
    | cons b u =>
      rw [hr] at h hws
      rw [← hws]
      exact h
  · intro h
    cases l with
    | nil => exact absurd h.symm h0
    | cons a t =>
      have ha : a = m := h
      rw [ha]
      exact char0_rtrim_cons m t hm

theorem isEmpty_false_of_ne_nil {l : List Char} (h : l ≠ []) : l.isEmpty = false := by
  cases l with
  | nil => exact absurd rfl h
  | cons a t => rfl

theorem ne_nil_of_char0 {l : List Char} {m : Char} (h : char0 l = m) (h0 : m ≠ Char.ofNat 0) :
    l ≠ [] := by
  intro hl
  rw [hl] at h
  exact h0 h.symm

/-! ### The loop of `nextread` -/

theorem nextreadBody_nil (rd : Reader) (read : Read) (count : Int) :
    nextreadBody rd read count [] = Step.next rd read count := by
  simp [nextreadBody]

theorem nextreadBody_ifs (rd : Reader) (a : List Line) (read : Read) (count : Int)
    (line : Line) :
    nextreadBody { rd with ifs := a } read count line =
      match nextreadBody rd read count line with
      | Step.next rd1 read1 count1 => Step.next { rd1 with ifs := a } read1 count1
      | Step.brk rd1 read1 => Step.brk { rd1 with ifs := a } read1 := by
  simp only [nextreadBody]
  split_ifs <;> rfl

theorem nextreadLoop_ifs (l : List Line) :
    ∀ (rd : Reader) (a : List Line) (read : Read) (count : Int),
      nextreadLoop { rd with ifs := a } read count l = nextreadLoop rd read count l := by
  induction l with
  | nil => intro rd a read count; rfl
  | cons x t ih =>
    intro rd a read count
    rw [nextreadLoop, nextreadLoop, nextreadBody_ifs]
    cases hb : nextreadBody rd read count x with
    | next rd1 read1 count1 => exact ih rd1 a read1 count1
    | brk rd1 read1 => rfl

theorem nextreadLoop_nil_ifs (rd : Reader) (read : Read) (count : Int) :
    (nextreadLoop rd read count []).2.ifs = [] := by
  simp only [nextreadLoop]
  split_ifs <;> rfl

theorem Reader.eq_of_counters {rd rd' : Reader} (h : rd'.counters = rd.counters) :
    rd' = { rd with ifs := rd'.ifs } := by
  cases rd
  cases rd'
  simp only [Reader.counters, Prod.mk.injEq] at h
  simp [h]

theorem nextreadLoop_counters {rd rd' : Reader} (h : rd'.counters = rd.counters)
    (read : Read) (count : Int) (l : List Line) :
    nextreadLoop rd' read count l = nextreadLoop rd read count l := by
  rw [Reader.eq_of_counters h, nextreadLoop_ifs]

theorem nextreadLoop_blankInserted {l l' : List Line} (h : BlankInserted l l') :
    ∀ (rd : Reader) (read : Read) (count : Int),
      (nextreadLoop rd read count l').1 = (nextreadLoop rd read count l).1 ∧
      (nextreadLoop rd read count l').2.counters = (nextreadLoop rd read count l).2.counters ∧
      BlankInserted (nextreadLoop rd read count l).2.ifs (nextreadLoop rd read count l').2.ifs := by
  induction h with
  | nil =>
    intro rd read count
    rw [nextreadLoop_nil_ifs]
    exact ⟨rfl, rfl, BlankInserted.nil⟩
  | keep x h ih =>
    intro rd read count
    rw [nextreadLoop, nextreadLoop]
    cases hb : nextreadBody rd read count x with
    | next rd1 read1 count1 => exact ih rd1 read1 count1
    | brk rd1 read1 => exact ⟨rfl, rfl, h⟩
  | blank h ih =>
    intro rd read count
    rw [nextreadLoop, nextreadBody_nil]
    exact ih rd read count

theorem nextreads_rel (R : List Line → List Line → Prop)
    (hR : ∀ l l', R l l' → ∀ (rd : Reader) (read : Read) (count : Int),
      (nextreadLoop rd read count l').1 = (nextreadLoop rd read count l).1 ∧
      (nextreadLoop rd read count l').2.counters = (nextreadLoop rd read count l).2.counters ∧
      R (nextreadLoop rd read count l).2.ifs (nextreadLoop rd read count l').2.ifs)
    (n : Nat) :
    ∀ (rd rd' : Reader), rd'.counters = rd.counters → R rd.ifs rd'.ifs →
      (nextreads n rd').1 = (nextreads n rd).1 ∧
      (nextreads n rd').2.counters = (nextreads n rd).2.counters := by
  induction n with
  | zero => intro rd rd' hc _; exact ⟨rfl, hc⟩
  | succ n ih =>
    intro rd rd' hc hb
    have h1 := hR _ _ hb rd Read.empty 0
    have h2 : nextread rd' = nextreadLoop rd Read.empty 0 rd'.ifs :=
      nextreadLoop_counters hc Read.empty 0 rd'.ifs
    have h3 := ih (nextread rd).2 (nextread rd').2
      (by rw [h2]; exact h1.2.1) (by rw [h2]; exact h1.2.2)
    simp only [nextreads]
    refine ⟨?_, h3.2⟩
    rw [h3.1, h2]
    exact congrArg (· :: (nextreads n (nextread rd).2).1) h1.1

theorem nextreadBody_trailingWs {x y : Line} (h : TrailingWs x y) (rd : Reader) (read : Read)
    (count : Int) : nextreadBody rd read count y = nextreadBody rd read count x := by
  rcases h with h | ⟨⟨c, hc, _⟩, ws, hws, hy⟩
  · rw [h]
  · have hx : x ≠ [] := List.ne_nil_of_mem hc
    have hxe : x.isEmpty = false := by
      cases x with
      | nil => exact absurd rfl hx
      | cons a t => rfl
    have hye : y.isEmpty = false := by
      rw [hy]
      cases x with
      | nil => exact absurd rfl hx
      | cons a t => rfl
    have ht : rtrim y = rtrim x := by rw [hy]; exact rtrim_append_ws x ws hws
    simp only [nextreadBody, hxe, hye, ht]

theorem nextreadLoop_trailingWs {l l' : List Line} (h : List.Forall₂ TrailingWs l l') :
    ∀ (rd : Reader) (read : Read) (count : Int),
      (nextreadLoop rd read count l').1 = (nextreadLoop rd read count l).1 ∧
      (nextreadLoop rd read count l').2.counters = (nextreadLoop rd read count l).2.counters ∧
      List.Forall₂ TrailingWs (nextreadLoop rd read count l).2.ifs
        (nextreadLoop rd read count l').2.ifs := by
  induction h with
  | nil =>
    intro rd read count
    rw [nextreadLoop_nil_ifs]
    exact ⟨rfl, rfl, List.Forall₂.nil⟩
  | cons hxy h ih =>
    intro rd read count
    rw [nextreadLoop, nextreadLoop, nextreadBody_trailingWs hxy]
    cases hb : nextreadBody rd read count _ with
    | next rd1 read1 count1 => exact ih rd1 read1 count1
    | brk rd1 read1 => exact ⟨rfl, rfl, h⟩

/-- The first line of the stream that is not empty, when it starts with `@`:
FASTQ mode is switched on and the line becomes the header of a new record. -/
theorem nextreadBody_first_fastq_header (rd : Reader) (read : Read) (line : Line)
    (hl : rd.line_count = 0) (he : read.isEmpty = true)
    (hh : char0 line = FASTQ_HEADER_START) :
    nextreadBody rd read 0 line =
      Step.next { rd with line_count := 1, isFastq := true, isFasta := false }
        { id := 0, isEmpty := false, format := Format.FASTQ, header := rtrim line,
          sequence := [], quality := [] } 1 := by
  have hne : line.isEmpty = false :=
    isEmpty_false_of_ne_nil (ne_nil_of_char0 hh (by decide))
  have h1 : char0 (rtrim line) = FASTQ_HEADER_START :=
    (char0_rtrim_eq_iff line FASTQ_HEADER_START (by decide) (by decide)).mpr hh
  have h2 : (FASTQ_HEADER_START == FASTA_HEADER_START) = false := by decide
  simp [nextreadBody, hne, h1, h2, hl, he, Read.clear, Read.empty]

/-- A line at position 1 of a FASTQ record is appended to the sequence. -/
theorem nextreadBody_fastq_one (rd : Reader) (read : Read) (line : Line)
    (hl : rd.line_count ≠ 0) (hq : rd.isFastq = true) (ha : rd.isFasta = false)
    (hne : line ≠ []) :
    nextreadBody rd read 1 line =
      Step.next { rd with line_count := rd.line_count + 1 }
        { read with sequence := read.sequence ++ rtrim line } 2 := by
  simp [nextreadBody, isEmpty_false_of_ne_nil hne, hl, hq, ha]

/-- A line at position 2 of a FASTQ record (the separator) is dropped. -/
theorem nextreadBody_fastq_two (rd : Reader) (read : Read) (line : Line)
    (hl : rd.line_count ≠ 0) (hq : rd.isFastq = true) (ha : rd.isFasta = false)
    (hne : line ≠ []) :
    nextreadBody rd read 2 line =
      Step.next { rd with line_count := rd.line_count + 1 } read 3 := by
  simp [nextreadBody, isEmpty_false_of_ne_nil hne, hl, hq, ha]

/-- A line at position 3 of a FASTQ record becomes the quality. -/
theorem nextreadBody_fastq_three (rd : Reader) (read : Read) (line : Line)
    (hl : rd.line_count ≠ 0) (hq : rd.isFastq = true) (ha : rd.isFasta = false)
    (hne : line ≠ []) :
    nextreadBody rd read 3 line =
      Step.next { rd with line_count := rd.line_count + 1 }
        { read with quality := rtrim line } 4 := by
  simp [nextreadBody, isEmpty_false_of_ne_nil hne, hl, hq, ha]

theorem nextreadLoop_blanks (b : List Line) (hb : ∀ x ∈ b, x = []) (l : List Line) :
    ∀ (rd : Reader) (read : Read) (count : Int),
      nextreadLoop rd read count (b ++ l) = nextreadLoop rd read count l := by
  induction b with
  | nil => intro rd read count; rfl
  | cons x t ih =>
    intro rd read count
    have hx : x = [] := hb x (List.mem_cons_self x t)
    rw [hx, List.cons_append, nextreadLoop, nextreadBody_nil]
    exact ih (fun y hy => hb y (List.mem_cons_of_mem x hy)) rd read count

/-- In FASTQ mode with `count = 4` and a record in progress, the next line that
is not empty ends the record, and so does the end of the stream. -/
theorem nextreadLoop_fastq_complete (rest : List Line) :
    ∀ (rd : Reader) (read : Read), rd.isFastq = true → 0 < rd.line_count →
      read.isEmpty = false →
      (nextreadLoop rd read 4 rest).1 = read.init (rd.read_count + 1) := by
  induction rest with
  | nil =>
    intro rd read _ _ he
    simp [nextreadLoop, he]
  | cons x t ih =>
    intro rd read hq hl he
    by_cases hx : x = []
    · rw [hx, nextreadLoop, nextreadBody_nil]
      exact ih rd read hq hl he
    · have hxe := isEmpty_false_of_ne_nil hx
      have hl0 : rd.line_count ≠ 0 := by omega
      simp [nextreadLoop, nextreadBody, hxe, hl0, hq, he]

/-! ### The loop of `loadReadByIdx` -/

theorem loadBody_nil (st : LoadState) : loadBody st [] = LoadStep.next st := by
  simp [loadBody]

theorem loadLoop_blankInserted {l l' : List Line} (h : BlankInserted l l') :
    ∀ st : LoadState, loadLoop st l' = loadLoop st l := by
  induction h with
  | nil => intro st; rfl
  | keep x _ ih =>
    intro st
    rw [loadLoop, loadLoop]
    cases hb : loadBody st x with
    | next st1 => exact ih st1
    | ready st1 => rfl
  | blank _ ih =>
    intro st
    rw [loadLoop, loadBody_nil]
    exact ih st

theorem loadLoop_blanks (b : List Line) (hb : ∀ x ∈ b, x = []) (l : List Line) :
    ∀ st : LoadState, loadLoop st (b ++ l) = loadLoop st l := by
  induction b with
  | nil => intro st; rfl
  | cons x t ih =>
    intro st
    have hx : x = [] := hb x (List.mem_cons_self x t)
    rw [hx, List.cons_append, loadLoop, loadBody_nil]
    exact ih (fun y hy => hb y (List.mem_cons_of_mem x hy)) st

/-- The header test of `loadReadByIdx` on the trimmed line is the test on the
first character of the line. -/
theorem headerTest_rtrim (line : Line) :
    (char0 (rtrim line) == FASTA_HEADER_START || char0 (rtrim line) == FASTQ_HEADER_START) =
      isHeaderLine line := by
  have h1 := char0_rtrim_eq_iff line FASTA_HEADER_START (by decide) (by decide)
  have h2 := char0_rtrim_eq_iff line FASTQ_HEADER_START (by decide) (by decide)
  unfold isHeaderLine
  rw [Bool.eq_iff_iff]
  simp only [Bool.or_eq_true, beq_iff_eq, h1, h2]

/-- A header line met while the read is empty and the index is not reached
yet is counted and passed over. -/
theorem loadBody_header_skip (st : LoadState) (line : Line) (hh : isHeaderLine line = true)
    (he : st.read.isEmpty = true) (hid : st.read_id ≠ st.read.id) :
    loadBody st line = LoadStep.next { st with read_id := st.read_id + 1, count := 0 } := by
  have hne : line.isEmpty = false := by
    cases line with
    | nil => exact absurd hh (by decide)
    | cons a t => rfl
  have ht := headerTest_rtrim line
  rw [hh] at ht
  simp only [loadBody, hne, ht, he]
  simp [hid]

/-- The header line met when the index is reached starts the record. -/
theorem loadBody_header_take (st : LoadState) (line : Line) (hh : isHeaderLine line = true)
    (he : st.read.isEmpty = true) (hid : st.read_id = st.read.id) :
    loadBody st line =
      LoadStep.next { st with
        isFastq := char0 line == FASTQ_HEADER_START,
        read := { id := st.read.id, isEmpty := false,
                  format := if char0 line == FASTQ_HEADER_START then Format.FASTQ
                    else Format.FASTA,
                  header := rtrim line, sequence := st.read.sequence,
                  quality := st.read.quality } } := by
  have hne : line.isEmpty = false := by
    cases line with
    | nil => exact absurd hh (by decide)
    | cons a t => rfl
  have ht := headerTest_rtrim line
  rw [hh] at ht
  have hq : (char0 (rtrim line) == FASTQ_HEADER_START) = (char0 line == FASTQ_HEADER_START) := by
    rw [Bool.eq_iff_iff]
    simp only [beq_iff_eq]
    exact char0_rtrim_eq_iff line FASTQ_HEADER_START (by decide) (by decide)
  simp only [loadBody, hne, ht, he]
  simp [hid, hq]

/-- A header line met when a record is in progress ends the scan with `isok`. -/
theorem loadBody_header_ready (st : LoadState) (line : Line) (hh : isHeaderLine line = true)
    (he : st.read.isEmpty = false) : loadBody st line = LoadStep.ready st := by
  have hne : line.isEmpty = false := by
    cases line with
    | nil => exact absurd hh (by decide)
    | cons a t => rfl
  have ht := headerTest_rtrim line
  rw [hh] at ht
  simp [loadBody, hne, ht, he]

/-- A line that is no header, met while the read is empty, changes nothing. -/
theorem loadBody_content_skip (st : LoadState) (line : Line) (hh : isHeaderLine line = false)
    (he : st.read.isEmpty = true) : loadBody st line = LoadStep.next st := by
  by_cases hl : line = []
  · rw [hl]; exact loadBody_nil st
  · have ht := headerTest_rtrim line
    rw [hh] at ht
    simp [loadBody, isEmpty_false_of_ne_nil hl, ht, he]

/-- A line that is no header, with a FASTA record in progress, is appended to
the sequence. -/
theorem loadBody_fasta_content (st : LoadState) (line : Line) (hh : isHeaderLine line = false)
    (he : st.read.isEmpty = false) (hq : st.isFastq = false) :
    loadBody st line =
      LoadStep.next { st with read := { st.read with sequence := st.read.sequence ++ rtrim line } } := by
  by_cases hl : line = []
  · rw [hl, loadBody_nil]
    simp [rtrim]
  · have ht := headerTest_rtrim line
    rw [hh] at ht
    simp [loadBody, isEmpty_false_of_ne_nil hl, ht, he, hq]

/-- A line that is not empty and no header, with a FASTQ record in progress:
`count` is incremented, a line starting with `+` is dropped, the line that
brings `count` to 3 is the quality, any other line is appended to the
sequence. -/
theorem loadBody_fastq_content (st : LoadState) (line : Line) (hl : line ≠ [])
    (hh : isHeaderLine line = false) (he : st.read.isEmpty = false) (hq : st.isFastq = true) :
    loadBody st line =
      if char0 line == '+' then LoadStep.next { st with count := st.count + 1 }
      else if st.count + 1 == 3 then
        LoadStep.next
          { st with count := st.count + 1, read := { st.read with quality := rtrim line } }
      else
        LoadStep.next
          { st with count := st.count + 1,
                    read := { st.read with sequence := st.read.sequence ++ rtrim line } } := by
  have ht := headerTest_rtrim line
  rw [hh] at ht
  have hp : (char0 (rtrim line) == '+') = (char0 line == '+') := by
    rw [Bool.eq_iff_iff]
    simp only [beq_iff_eq]
    exact char0_rtrim_eq_iff line '+' (by decide) (by decide)
  simp [loadBody, isEmpty_false_of_ne_nil hl, ht, he, hq, hp]

/-- The scan up to the record looked for: the lines in front of it hold as
many header lines as the index still has to count. -/
theorem loadLoop_skip (pre : List Line) (l : List Line) :
    ∀ st : LoadState, st.read.isEmpty = true → st.count = 0 →
      st.read_id + pre.countP isHeaderLine = st.read.id →
      loadLoop st (pre ++ l) = loadLoop { st with read_id := st.read.id } l := by
  induction pre with
  | nil =>
    intro st _ _ hid
    have : st.read_id = st.read.id := by simpa using hid
    rw [← this]
    rfl
  | cons x t ih =>
    intro st he hc hid
    rw [List.cons_append, loadLoop]
    by_cases hx : isHeaderLine x = true
    · rw [List.countP_cons_of_pos _ _ hx] at hid
      rw [loadBody_header_skip st x hx he (by omega)]
      simp only []
      rw [ih { st with read_id := st.read_id + 1, count := 0 } he rfl (by simp only []; omega)]
      cases st
      simp only at hc
      simp [hc]
    · rw [List.countP_cons_of_neg _ _ hx] at hid
      rw [loadBody_content_skip st x (by simpa using hx) he]
      exact ih st he hc hid

/-- The lines of a FASTA record in progress, up to the next header line. -/
theorem loadLoop_fasta_body (body : List Line) (l : List Line) :
    ∀ st : LoadState, st.read.isEmpty = false → st.isFastq = false →
      (∀ x ∈ body, isHeaderLine x = false) →
      loadLoop st (body ++ l) =
        loadLoop { st with read := { st.read with
          sequence := st.read.sequence ++ (body.map rtrim).flatten } } l := by
  induction body with
  | nil =>
    intro st _ _ _
    simp
  | cons x t ih =>
    intro st he hq hb
    rw [List.cons_append, loadLoop,
      loadBody_fasta_content st x (hb x (List.mem_cons_self x t)) he hq]
    simp only []
    rw [ih { st with read := { st.read with sequence := st.read.sequence ++ rtrim x } } he hq
      (fun y hy => hb y (List.mem_cons_of_mem x hy))]
    simp [List.append_assoc]

/-- The end of a record in progress: the end of the stream, or a header
line. The read is the same in both cases, `isok` is not. -/
theorem loadLoop_record_end (rest : List Line)
    (hrest : rest = [] ∨ ∃ x t, rest = x :: t ∧ isHeaderLine x = true)
    (st : LoadState) (he : st.read.isEmpty = false) :
    loadLoop st rest = (!rest.isEmpty, st.read) := by
  rcases hrest with h | ⟨x, t, h, hx⟩
  · rw [h]; rfl
  · rw [h, loadLoop, loadBody_header_ready st x hx he]
    rfl

/-- A stream splits at its first header line: the lines in front of it hold
no header line. -/
theorem exists_content_split (l : List Line) :
    ∃ body rest, l = body ++ rest ∧ (∀ x ∈ body, isHeaderLine x = false) ∧
      (rest = [] ∨ ∃ x t, rest = x :: t ∧ isHeaderLine x = true) := by
  induction l with
  | nil => exact ⟨[], [], rfl, fun _ hx => absurd hx (List.not_mem_nil _), Or.inl rfl⟩
  | cons a t ih =>
    by_cases ha : isHeaderLine a = true
    · exact ⟨[], a :: t, rfl, fun _ hx => absurd hx (List.not_mem_nil _),
        Or.inr ⟨a, t, rfl, ha⟩⟩
    · obtain ⟨body, rest, hl, hb, hr⟩ := ih
      refine ⟨a :: body, rest, by rw [hl]; rfl, ?_, hr⟩
      intro x hx
      rcases List.mem_cons.mp hx with h | h
      · rw [h]; simpa using ha
      · exact hb x h

/-- A stream with more than `k` header lines splits into the lines in front of
the header line at zero-based position `k`, that header line, the lines of
its record, and the rest, which is empty or starts with the next header
line. -/
theorem exists_record_split (l : List Line) :
    ∀ k, k < l.countP isHeaderLine →
      ∃ pre h body rest, l = pre ++ h :: (body ++ rest) ∧ pre.countP isHeaderLine = k ∧
        isHeaderLine h = true ∧ (∀ x ∈ body, isHeaderLine x = false) ∧
        (rest = [] ∨ ∃ x t, rest = x :: t ∧ isHeaderLine x = true) := by
  induction l with
  | nil => intro k hk; exact absurd hk (by simp)
  | cons a t ih =>
    intro k hk
    by_cases ha : isHeaderLine a = true
    · cases k with
      | zero =>
        obtain ⟨body, rest, hl, hb, hr⟩ := exists_content_split t
        exact ⟨[], a, body, rest, by rw [hl]; rfl, rfl, ha, hb, hr⟩
      | succ k =>
        rw [List.countP_cons_of_pos _ _ ha] at hk
        obtain ⟨pre, h, body, rest, hl, hp, hh, hb, hr⟩ := ih k (by omega)
        refine ⟨a :: pre, h, body, rest, by rw [hl]; rfl, ?_, hh, hb, hr⟩
        rw [List.countP_cons_of_pos _ _ ha, hp]
    · rw [List.countP_cons_of_neg _ _ ha] at hk
      obtain ⟨pre, h, body, rest, hl, hp, hh, hb, hr⟩ := ih k hk
      refine ⟨a :: pre, h, body, rest, by rw [hl]; rfl, ?_, hh, hb, hr⟩
      rw [List.countP_cons_of_neg _ _ ha, hp]

/-! ### The claims -/

/-- C1 (sequential completeness), evaluated on two well-formed files of two
records. On the FASTA file the first call returns record 1 with ordinal 1, and
the second call, which should return `>r2 / TTTT` with ordinal 2, returns an
empty read: the header `>r2` that ended record 1 was consumed by the first
call. On the FASTQ file the second call returns a read whose header is the
sequence line of record 2. -/
theorem nextread_two_records_second_lost :
    (nextreads 2 (Reader.fresh fastaTwo)).1 =
      [Read.mk1 1 Format.FASTA ">r1" "ACGT" "",
       { Read.empty with sequence := "TTTT".toList }] ∧
    (nextreads 2 (Reader.fresh fastaTwo)).2.read_count = 1 ∧
    (nextreads 2 (Reader.fresh fastqTwo)).1 =
      [Read.mk1 1 Format.FASTQ "@r1" "ACGT" "FFFF",
       Read.mk1 2 Format.FASTQ "TTTT" "+" ""] := by
  decide

/-- C4 (FASTA multi-line concatenation), evaluated on the five lines
`>r1 / ACGT / ACGT / >r2 / TTTT`. The first read is `>r1` with the two
sequence lines concatenated; the second read, which should be `>r2 / TTTT`,
is an empty read (no header, no ordinal), and so is the third. -/
theorem nextread_five_lines_second_record_lost :
    (nextreads 3 (Reader.fresh fastaFive)).1 =
      [Read.mk1 1 Format.FASTA ">r1" "ACGTACGT" "",
       { Read.empty with sequence := "TTTT".toList },
       Read.empty] := by
  decide

/-- C2 (random-access equivalence), evaluated at ordinal 1. On the one-record
file `>r1 / ACGT` sequential traversal returns the record with ordinal 1, and
`loadReadByIdx` with an empty read of id 1 finds nothing and leaves the read
empty. On the two-record file the lookup of id 1 fills the read with record
`>r2`, the sequential record of ordinal 1 being `>r1`. -/
theorem loadReadByIdx_ordinal_one_differs :
    (nextread (Reader.fresh [">r1".toList, "ACGT".toList])).1 =
      Read.mk1 1 Format.FASTA ">r1" "ACGT" "" ∧
    loadReadByIdx [">r1".toList, "ACGT".toList] (Read.target 1) = (false, Read.target 1) ∧
    (nextread (Reader.fresh fastaTwo)).1 = Read.mk1 1 Format.FASTA ">r1" "ACGT" "" ∧
    (loadReadByIdx fastaTwo (Read.target 1)).2 = Read.mk1 1 Format.FASTA ">r2" "TTTT" "" := by
  decide

/-- C6 (whitespace-only lines), evaluated. A line holding a lone carriage
return in front of `>r1 / ACGT` makes every call return an empty read (the file
alone gives the record); inside a FASTQ record, between header and sequence,
it takes the place of the sequence line; inside a FASTA record it leaves the
read as it is and advances `line_count`. -/
theorem nextread_whitespace_line_not_skipped :
    (nextreads 2 (Reader.fresh [">r1".toList, "ACGT".toList])).1 =
      [Read.mk1 1 Format.FASTA ">r1" "ACGT" "", Read.empty] ∧
    (nextreads 2 (Reader.fresh ["\r".toList, ">r1".toList, "ACGT".toList])).1 =
      [{ Read.empty with sequence := ">r1ACGT".toList }, Read.empty] ∧
    (nextread (Reader.fresh ["@r1".toList, "ACGT".toList, "+".toList, "FFFF".toList])).1 =
      Read.mk1 1 Format.FASTQ "@r1" "ACGT" "FFFF" ∧
    (nextread (Reader.fresh ["@r1".toList, " ".toList, "ACGT".toList, "+".toList,
        "FFFF".toList])).1 = Read.mk1 1 Format.FASTQ "@r1" "" "+" ∧
    (nextread (Reader.fresh [">r1".toList, "ACGT".toList])).2.line_count = 3 ∧
    (nextread (Reader.fresh [">r1".toList, "\t".toList, "ACGT".toList])).2.line_count = 4 := by
  decide

/-- C10 (random-access success status), evaluated on the last record of a
file. The record at position 1 of the two-record file, and the record at
position 0 of the one-record file, are loaded into the read and the function
returns false, as it does when the file has too few records. -/
theorem loadReadByIdx_last_record_returns_false :
    loadReadByIdx fastaTwo (Read.target 1) =
      (false, Read.mk1 1 Format.FASTA ">r2" "TTTT" "") ∧
    loadReadByIdx [">r1".toList, "ACGT".toList] (Read.target 0) =
      (false, Read.mk1 0 Format.FASTA ">r1" "ACGT" "") ∧
    loadReadByIdx fastaTwo (Read.target 0) =
      (true, Read.mk1 0 Format.FASTA ">r1" "ACGT" "") ∧
    loadReadByIdx fastaTwo (Read.target 2) = (false, Read.target 2) := by
  decide

/-- C5 (blank-line transparency). If `l'` is `l` with empty lines inserted at any
positions, then the reads returned by any number of successive `nextread`
calls (with their ordinals) are the same on both, so are the counters of the
reader after these calls, and so is the result of `loadReadByIdx` for every
read passed in; one pass of the `nextread` loop on an empty line leaves
`count`, `line_count`, `read_count` and the read as they were. -/
theorem blank_line_transparency (l l' : List Line) (h : BlankInserted l l') :
    (∀ n, (nextreads n (Reader.fresh l')).1 = (nextreads n (Reader.fresh l)).1) ∧
    (∀ n, (nextreads n (Reader.fresh l')).2.counters =
      (nextreads n (Reader.fresh l)).2.counters) ∧
    (∀ read, loadReadByIdx l' read = loadReadByIdx l read) ∧
    (∀ rd read count, nextreadBody rd read count [] = Step.next rd read count) :=
  ⟨fun n => (nextreads_rel BlankInserted (fun _ _ hb => nextreadLoop_blankInserted hb) n
      (Reader.fresh l) (Reader.fresh l') rfl h).1,
   fun n => (nextreads_rel BlankInserted (fun _ _ hb => nextreadLoop_blankInserted hb) n
      (Reader.fresh l) (Reader.fresh l') rfl h).2,
   fun _ => loadLoop_blankInserted h _,
   nextreadBody_nil⟩

/-- C5 at a concrete input: `>r1 / ACGT` with empty lines in front, between
header and sequence, and at the end. -/
theorem blank_line_transparency_witness :
    BlankInserted [">r1".toList, "ACGT".toList] [[], ">r1".toList, [], "ACGT".toList, []] ∧
    (nextreads 2 (Reader.fresh [[], ">r1".toList, [], "ACGT".toList, []])).1 =
      (nextreads 2 (Reader.fresh [">r1".toList, "ACGT".toList])).1 :=
  ⟨BlankInserted.blank (BlankInserted.keep _ (BlankInserted.blank (BlankInserted.keep _
      (BlankInserted.blank BlankInserted.nil)))),
   (blank_line_transparency [">r1".toList, "ACGT".toList]
      [[], ">r1".toList, [], "ACGT".toList, []]
      (BlankInserted.blank (BlankInserted.keep _ (BlankInserted.blank (BlankInserted.keep _
        (BlankInserted.blank BlankInserted.nil)))))).1 2⟩

/-- C7 (trailing whitespace and carriage returns). If every line of `l'` is the
corresponding line of `l`, or is that line, holding a character that is not
whitespace, followed by any number of whitespace characters, then the reads
returned by any number of successive `nextread` calls are the same on `l'`
and on `l` (header, sequence, quality, format, emptiness and ordinal), and so
are the counters and format flags of the reader. -/
theorem trailing_whitespace_trimmed (l l' : List Line) (h : List.Forall₂ TrailingWs l l') :
    ∀ n, (nextreads n (Reader.fresh l')).1 = (nextreads n (Reader.fresh l)).1 ∧
      (nextreads n (Reader.fresh l')).2.counters = (nextreads n (Reader.fresh l)).2.counters :=
  fun n => nextreads_rel (List.Forall₂ TrailingWs) (fun _ _ hb => nextreadLoop_trailingWs hb) n
    (Reader.fresh l) (Reader.fresh l') rfl h

/-- C7 at a concrete input: `>r1 / ACGT` with a carriage return after the
header and a space and a tab after the sequence line. -/
theorem trailing_whitespace_trimmed_witness :
    List.Forall₂ TrailingWs [">r1".toList, "ACGT".toList] [">r1\r".toList, "ACGT \t".toList] ∧
    (nextreads 2 (Reader.fresh [">r1\r".toList, "ACGT \t".toList])).1 =
      [Read.mk1 1 Format.FASTA ">r1" "ACGT" "", Read.empty] :=
  have hw : List.Forall₂ TrailingWs [">r1".toList, "ACGT".toList]
      [">r1\r".toList, "ACGT \t".toList] :=
    List.Forall₂.cons (Or.inr ⟨⟨'>', by decide, by decide⟩, ['\r'], by decide, by decide⟩)
      (List.Forall₂.cons (Or.inr ⟨⟨'A', by decide, by decide⟩, [' ', '\t'], by decide, by decide⟩)
        List.Forall₂.nil)
  ⟨hw, ((trailing_whitespace_trimmed _ _ hw 2).1).trans (by decide)⟩

/-- C3 (FASTQ 4-line assembly, no length validation). Let the stream start with
the four lines `h`, `s`, `p`, `q`, with any number of empty lines in front of
each of them, `h` starting with `@` and `s`, `p`, `q` not empty (in particular
when they are not empty after trimming); nothing is asked of the lengths or of
the first characters of `s`, `p`, `q`, nor of the lines that follow. Then the
first `nextread` call on a fresh reader returns a non-empty FASTQ read with
ordinal 1 whose header, sequence and quality are `h`, `s` and `q` with their
trailing whitespace removed; `p` is in none of them. -/
theorem fastq_four_line_assembly (b0 b1 b2 b3 : List Line) (h s p q : Line)
    (rest : List Line)
    (hb0 : ∀ x ∈ b0, x = []) (hb1 : ∀ x ∈ b1, x = []) (hb2 : ∀ x ∈ b2, x = [])
    (hb3 : ∀ x ∈ b3, x = [])
    (hh : char0 h = FASTQ_HEADER_START) (hs : s ≠ []) (hp : p ≠ []) (hq : q ≠ []) :
    (nextread (Reader.fresh (b0 ++ h :: (b1 ++ s :: (b2 ++ p :: (b3 ++ q :: rest)))))).1 =
      { id := 1, isEmpty := false, format := Format.FASTQ, header := rtrim h,
        sequence := rtrim s, quality := rtrim q } := by
  unfold nextread
  simp only [Reader.fresh]
  rw [nextreadLoop_blanks b0 hb0, nextreadLoop, nextreadBody_first_fastq_header _ _ h rfl rfl hh]
  simp only []
  rw [nextreadLoop_blanks b1 hb1, nextreadLoop,
    nextreadBody_fastq_one _ _ s (by simp) rfl rfl hs]
  simp only []
  rw [nextreadLoop_blanks b2 hb2, nextreadLoop,
    nextreadBody_fastq_two _ _ p (by simp) rfl rfl hp]
  simp only []
  rw [nextreadLoop_blanks b3 hb3, nextreadLoop,
    nextreadBody_fastq_three _ _ q (by simp) rfl rfl hq]
  simp only []
  rw [nextreadLoop_fastq_complete rest _ _ rfl (by simp) rfl]
  simp [Read.init]

/-- C3 at the input of the claim, `@r1 / ACGT / + / FFFF`, and at a record whose
quality is shorter than its sequence and whose separator is not `+`. -/
theorem fastq_four_line_assembly_witness :
    (nextread (Reader.fresh ["@r1".toList, "ACGT".toList, "+".toList, "FFFF".toList])).1 =
      Read.mk1 1 Format.FASTQ "@r1" "ACGT" "FFFF" ∧
    (nextread (Reader.fresh ["@r1".toList, [], "ACGT".toList, "x".toList, "@F".toList,
      "@r2".toList])).1 = Read.mk1 1 Format.FASTQ "@r1" "ACGT" "@F" :=
  ⟨(fastq_four_line_assembly [] [] [] [] "@r1".toList "ACGT".toList "+".toList "FFFF".toList []
      (by simp) (by simp) (by simp) (by simp) (by decide) (by decide) (by decide)
      (by decide)).trans (by decide),
   (fastq_four_line_assembly [] [[]] [] [] "@r1".toList "ACGT".toList "x".toList "@F".toList
      ["@r2".toList]
      (by simp) (by simp) (by simp) (by simp) (by decide) (by decide) (by decide)
      (by decide)).trans (by decide)⟩

/-- C8 (random-access record selection, FASTA). Let the stream be `pre`, then a
line `h` starting with `>`, then lines `body` none of which is a header line,
then `rest`, which is empty or starts with a header line; let `pre` hold
exactly `k` header lines (lines starting with `>` or `@`), so that `h` is the
header line at zero-based position `k`. Then `loadReadByIdx` called with an
empty read of id `k` leaves in the read the format FASTA, the trimmed `h` as
header and, as sequence, the concatenation in order of the trimmed lines of
`body`; no line of `pre` or `rest` is in it. -/
theorem loadReadByIdx_fasta_selection (k : Nat) (pre : List Line) (h : Line)
    (body rest : List Line)
    (hpre : pre.countP isHeaderLine = k)
    (hh : char0 h = FASTA_HEADER_START)
    (hbody : ∀ x ∈ body, isHeaderLine x = false)
    (hrest : rest = [] ∨ ∃ x t, rest = x :: t ∧ isHeaderLine x = true) :
    (loadReadByIdx (pre ++ h :: (body ++ rest)) (Read.target k)).2 =
      { id := k, isEmpty := false, format := Format.FASTA, header := rtrim h,
        sequence := (body.map rtrim).flatten, quality := [] } := by
  have hhl : isHeaderLine h = true := by simp [isHeaderLine, hh]
  have hq : (char0 h == FASTQ_HEADER_START) = false := by rw [hh]; decide
  unfold loadReadByIdx
  rw [loadLoop_skip pre _ _ rfl rfl (by simpa [Read.target] using hpre), loadLoop,
    loadBody_header_take _ h hhl rfl rfl]
  simp only [hq]
  rw [loadLoop_fasta_body body rest _ rfl rfl hbody, loadLoop_record_end rest hrest _ rfl]
  simp [Read.target, Read.empty]

/-- C8 at a concrete input: index 1 in a three-record FASTA file. -/
theorem loadReadByIdx_fasta_selection_witness :
    char0 ">r2".toList = FASTA_HEADER_START ∧
    (loadReadByIdx [">r1".toList, "AC".toList, ">r2".toList, "GG ".toList, "TT".toList,
      ">r3".toList, "A".toList] (Read.target 1)).2 = Read.mk1 1 Format.FASTA ">r2" "GGTT" "" :=
  ⟨by decide,
   (loadReadByIdx_fasta_selection 1 [">r1".toList, "AC".toList] ">r2".toList
      ["GG ".toList, "TT".toList] [">r3".toList, "A".toList] (by decide) (by decide)
      (by decide) (Or.inr ⟨_, _, rfl, by decide⟩)).trans (by decide)⟩

/-- C9 as stated fails. For the FASTQ record `@r1 / ACGT / + / @FFF`, whose
quality starts with `@`, `loadReadByIdx` takes the fourth line for a header
line and leaves the quality empty; a quality starting with `+` is dropped as
if it were the separator; a separator `x`, which does not start with `+`, is
appended to the sequence. -/
theorem loadReadByIdx_fastq_by_content :
    (loadReadByIdx ["@r1".toList, "ACGT".toList, "+".toList, "@FFF".toList]
      (Read.target 0)).2 = Read.mk1 0 Format.FASTQ "@r1" "ACGT" "" ∧
    (loadReadByIdx ["@r1".toList, "ACGT".toList, "+".toList, "@FFF".toList]
      (Read.target 0)).2.quality ≠ "@FFF".toList ∧
    (loadReadByIdx ["@r1".toList, "ACGT".toList, "+".toList, "+FFF".toList]
      (Read.target 0)).2.quality ≠ "+FFF".toList ∧
    (loadReadByIdx ["@r1".toList, "ACGT".toList, "x".toList, "FFFF".toList]
      (Read.target 0)).2.sequence ≠ "ACGT".toList := by
  decide

/-- C9, amended. Let the target FASTQ record be the four lines `h`, `s`, `p`, `q`
(with any number of empty lines between them and behind them), `h` starting
with `@` at zero-based position `k` among the header lines, followed by the
end of the stream or by a header line. If the separator `p` starts with `+`
and neither `s` nor `q` is empty or starts with `+`, `>` or `@`, then
`loadReadByIdx` called with an empty read of id `k` leaves in the read the
format FASTQ, header `h`, sequence `s` and quality `q`, each with its
trailing whitespace removed. -/
theorem loadReadByIdx_fastq_record (k : Nat) (pre b1 b2 b3 b4 : List Line) (h s p q : Line)
    (rest : List Line)
    (hpre : pre.countP isHeaderLine = k)
    (hb1 : ∀ x ∈ b1, x = []) (hb2 : ∀ x ∈ b2, x = []) (hb3 : ∀ x ∈ b3, x = [])
    (hb4 : ∀ x ∈ b4, x = [])
    (hh : char0 h = FASTQ_HEADER_START)
    (hs : s ≠ []) (hs1 : char0 s ≠ '+') (hs2 : isHeaderLine s = false)
    (hp : char0 p = '+')
    (hq : q ≠ []) (hq1 : char0 q ≠ '+') (hq2 : isHeaderLine q = false)
    (hrest : rest = [] ∨ ∃ x t, rest = x :: t ∧ isHeaderLine x = true) :
    (loadReadByIdx (pre ++ h :: (b1 ++ s :: (b2 ++ p :: (b3 ++ q :: (b4 ++ rest)))))
      (Read.target k)).2 =
      { id := k, isEmpty := false, format := Format.FASTQ, header := rtrim h,
        sequence := rtrim s, quality := rtrim q } := by
  have hhl : isHeaderLine h = true := by simp [isHeaderLine, hh]
  have hpl : isHeaderLine p = false := by rw [isHeaderLine, hp]; decide
  have hpn : p ≠ [] := ne_nil_of_char0 hp (by decide)
  unfold loadReadByIdx
  rw [loadLoop_skip pre _ _ rfl rfl (by simpa [Read.target] using hpre), loadLoop,
    loadBody_header_take _ h hhl rfl rfl]
  simp only [hh, beq_self_eq_true, if_true]
  rw [loadLoop_blanks b1 hb1, loadLoop, loadBody_fastq_content _ s hs hs2 rfl rfl]
  simp only [beq_iff_eq, hs1, if_false, zero_add, show ¬ ((1 : Int) = 3) by decide]
  rw [loadLoop_blanks b2 hb2, loadLoop, loadBody_fastq_content _ p hpn hpl rfl rfl]
  simp only [hp, beq_self_eq_true, if_true]
  rw [loadLoop_blanks b3 hb3, loadLoop, loadBody_fastq_content _ q hq hq2 rfl rfl]
  simp only [beq_iff_eq, hq1, if_false, show ((1 : Int) + 1 + 1 = 3) by decide, if_true]
  rw [loadLoop_blanks b4 hb4, loadLoop_record_end rest hrest _ rfl]
  simp [Read.target, Read.empty]

/-- C9 amended, at a concrete input: index 1 in a two-record FASTQ file whose
second record has a quality shorter than its sequence. -/
theorem loadReadByIdx_fastq_record_witness :
    char0 "@r1".toList = FASTQ_HEADER_START ∧
    (loadReadByIdx ["@r0".toList, "AA".toList, "+".toList, "FF".toList,
      "@r1".toList, "ACGT".toList, [], "+r1".toList, "FFF".toList] (Read.target 1)).2 =
      Read.mk1 1 Format.FASTQ "@r1" "ACGT" "FFF" :=
  ⟨by decide,
   (loadReadByIdx_fastq_record 1 ["@r0".toList, "AA".toList, "+".toList, "FF".toList]
      [] [[]] [] [] "@r1".toList "ACGT".toList "+r1".toList "FFF".toList []
      (by decide) (by simp) (by simp) (by simp) (by simp) (by decide)
      (by decide) (by decide) (by decide) (by decide) (by decide) (by decide) (by decide)
      (Or.inl rfl)).trans (by decide)⟩

/-! ### Ordinals, end of stream, streams without header -/

/-- One pass of the loop of `nextread` either goes on with `read_count` as it
was, or breaks with `read_count` incremented and the read in progress, which
is not empty, given the new value as ordinal. -/
theorem nextreadBody_read_count (rd : Reader) (read : Read) (count : Int) (line : Line) :
    (∀ rd1 read1 count1, nextreadBody rd read count line = Step.next rd1 read1 count1 →
      rd1.read_count = rd.read_count) ∧
    (∀ rd1 read1, nextreadBody rd read count line = Step.brk rd1 read1 →
      rd1.read_count = rd.read_count + 1 ∧ read1 = read.init (rd.read_count + 1) ∧
      read.isEmpty = false) := by
  constructor
  · intro rd1 read1 count1 h
    simp only [nextreadBody] at h
    split_ifs at h <;> simp at h
    all_goals
      obtain ⟨ha, _, _⟩ := h
      subst ha
      rfl
  · intro rd1 read1 h
    simp only [nextreadBody] at h
    split_ifs at h <;> simp at h
    all_goals
      obtain ⟨ha, hb⟩ := h
      subst ha hb
      simp_all

/-- A call of the loop of `nextread` returns a read that is not empty exactly
when it increments `read_count`, and the ordinal of that read is the new
value. -/
theorem nextreadLoop_read_count (l : List Line) :
    ∀ (rd : Reader) (read : Read) (count : Int),
      ((nextreadLoop rd read count l).1.isEmpty = false →
        (nextreadLoop rd read count l).2.read_count = rd.read_count + 1 ∧
        (nextreadLoop rd read count l).1.id = rd.read_count + 1) ∧
      ((nextreadLoop rd read count l).1.isEmpty = true →
        (nextreadLoop rd read count l).2.read_count = rd.read_count) := by
  induction l with
  | nil =>
    intro rd read count
    cases he : read.isEmpty <;> simp [nextreadLoop, he, Read.init]
  | cons x t ih =>
    intro rd read count
    have hb := nextreadBody_read_count rd read count x
    rw [nextreadLoop]
    cases hs : nextreadBody rd read count x with
    | next rd1 read1 count1 =>
      have h1 := hb.1 rd1 read1 count1 hs
      simp only []
      rw [← h1]
      exact ih rd1 read1 count1
    | brk rd1 read1 =>
      obtain ⟨h1, h2, h3⟩ := hb.2 rd1 read1 hs
      simp [h1, h2, h3, Read.init]

theorem nextreads_ordinals (n : Nat) :
    ∀ rd : Reader,
      rd.read_count ≤ (nextreads n rd).2.read_count ∧
      ((nextreads n rd).1.filter (fun r => !r.isEmpty)).map Read.id =
        List.range' (rd.read_count + 1) ((nextreads n rd).2.read_count - rd.read_count) := by
  induction n with
  | zero => intro rd; simp [nextreads]
  | succ n ih =>
    intro rd
    have h := nextreadLoop_read_count rd.ifs rd Read.empty 0
    have hi := ih (nextread rd).2
    simp only [nextreads]
    cases he : (nextread rd).1.isEmpty with
    | true =>
      have h2 : (nextread rd).2.read_count = rd.read_count := h.2 he
      rw [h2] at hi
      refine ⟨hi.1, ?_⟩
      rw [List.filter_cons_of_neg (by simp [he])]
      exact hi.2
    | false =>
      obtain ⟨h2, h3⟩ := h.1 he
      have h2' : (nextread rd).2.read_count = rd.read_count + 1 := h2
      have h3' : (nextread rd).1.id = rd.read_count + 1 := h3
      rw [h2'] at hi
      refine ⟨by omega, ?_⟩
      rw [List.filter_cons_of_pos (by simp [he]), List.map_cons, hi.2, h3']
      have hk : (nextreads n (nextread rd).2).2.read_count - rd.read_count =
          ((nextreads n (nextread rd).2).2.read_count - (rd.read_count + 1)) + 1 := by
        have := hi.1
        omega
      rw [hk, List.range'_succ]

/-- After the end of the stream every call returns the empty read and leaves
`read_count` as it is. -/
theorem nextreads_of_ifs_nil (n : Nat) :
    ∀ rd : Reader, rd.ifs = [] →
      (nextreads n rd).1 = List.replicate n Read.empty ∧
      (nextreads n rd).2.read_count = rd.read_count ∧
      (nextreads n rd).2.is_done = rd.is_done := by
  induction n with
  | zero => intro rd _; exact ⟨rfl, rfl, rfl⟩
  | succ n ih =>
    intro rd h
    have h1 : nextread rd =
        (Read.empty, { rd with line_count := rd.line_count + 1, ifs := [] }) := by
      unfold nextread
      rw [h]
      rfl
    have h2 := ih (nextread rd).2 (by rw [h1])
    simp only [nextreads]
    rw [h2.1, h2.2.1, h2.2.2, h1]
    exact ⟨rfl, rfl, rfl⟩

/-- A line that is no header line is never a header for `nextread` when no
format flag is set: the loop goes on, the flags stay unset, `read_count` and
the emptiness of the read are unchanged. -/
theorem nextreadBody_no_header (rd : Reader) (read : Read) (count : Int) (line : Line)
    (hq : rd.isFastq = false) (ha : rd.isFasta = false) (hh : isHeaderLine line = false) :
    ∃ rd1 read1 count1, nextreadBody rd read count line = Step.next rd1 read1 count1 ∧
      rd1.isFastq = false ∧ rd1.isFasta = false ∧ rd1.read_count = rd.read_count ∧
      read1.isEmpty = read.isEmpty := by
  by_cases hl : line = []
  · rw [hl, nextreadBody_nil]
    exact ⟨rd, read, count, rfl, hq, ha, rfl, rfl⟩
  · have ht := headerTest_rtrim line
    rw [hh, Bool.or_eq_false_iff] at ht
    obtain ⟨h1, h2⟩ := ht
    by_cases hc : rd.line_count = 0
    · simp only [nextreadBody, isEmpty_false_of_ne_nil hl, h1, h2, hq, ha, hc]
      simp
      exact ⟨_, _, ⟨rfl, rfl⟩, rfl, rfl, rfl, rfl⟩
    · simp only [nextreadBody, isEmpty_false_of_ne_nil hl, h1, h2, hq, ha]
      simp [hc]
      exact ⟨_, _, ⟨rfl, rfl⟩, rfl, rfl, rfl, rfl⟩

theorem nextreadLoop_no_header (l : List Line) (hl : ∀ x ∈ l, isHeaderLine x = false) :
    ∀ (rd : Reader) (read : Read) (count : Int), rd.isFastq = false → rd.isFasta = false →
      read.isEmpty = true →
      (nextreadLoop rd read count l).1.isEmpty = true ∧
      (nextreadLoop rd read count l).2.read_count = rd.read_count ∧
      (nextreadLoop rd read count l).2.ifs = [] := by
  induction l with
  | nil =>
    intro rd read count _ _ he
    simp [nextreadLoop, he]
  | cons x t ih =>
    intro rd read count hq ha he
    obtain ⟨rd1, read1, count1, hb, h1, h2, h3, h4⟩ :=
      nextreadBody_no_header rd read count x hq ha (hl x (List.mem_cons_self x t))
    rw [nextreadLoop, hb]
    simp only []
    rw [← h3]
    exact ih (fun y hy => hl y (List.mem_cons_of_mem x hy)) rd1 read1 count1 h1 h2
      (by rw [h4]; exact he)

/-- The scan of `loadReadByIdx` when the stream has too few header lines: the
index is never reached and the read is not touched. -/
theorem loadLoop_not_found (l : List Line) :
    ∀ st : LoadState, st.read.isEmpty = true →
      st.read_id + l.countP isHeaderLine ≤ st.read.id →
      loadLoop st l = (false, st.read) := by
  induction l with
  | nil => intro st _ _; rfl
  | cons x t ih =>
    intro st he hid
    rw [loadLoop]
    by_cases hx : isHeaderLine x = true
    · rw [List.countP_cons_of_pos _ _ hx] at hid
      rw [loadBody_header_skip st x hx he (by omega)]
      exact ih { st with read_id := st.read_id + 1, count := 0 } he (by simp only []; omega)
    · rw [List.countP_cons_of_neg _ _ hx] at hid
      rw [loadBody_content_skip st x (by simpa using hx) he]
      exact ih st he hid

theorem nextreads_no_header (n : Nat) :
    ∀ rd : Reader, rd.isFastq = false → rd.isFasta = false →
      (∀ x ∈ rd.ifs, isHeaderLine x = false) →
      (∀ r ∈ (nextreads n rd).1, r.isEmpty = true) ∧
      (nextreads n rd).2.read_count = rd.read_count := by
  cases n with
  | zero => intro rd _ _ _; exact ⟨fun r hr => absurd hr (List.not_mem_nil r), rfl⟩
  | succ n =>
    intro rd hq ha hl
    obtain ⟨h1, h2, h3⟩ := nextreadLoop_no_header rd.ifs hl rd Read.empty 0 hq ha rfl
    obtain ⟨h4, h5, _⟩ := nextreads_of_ifs_nil n (nextread rd).2 h3
    simp only [nextreads]
    refine ⟨?_, by rw [h5]; exact h2⟩
    intro r hr
    rcases List.mem_cons.mp hr with h | h
    · rw [h]; exact h1
    · rw [h4] at h
      rw [List.eq_of_mem_replicate h]
      rfl

/-- The trimmed line followed by the whitespace that the trim removed is the
line. -/
theorem rtrim_append_removed (l : List Char) :
    ∃ ws, l = rtrim l ++ ws ∧ ∀ c ∈ ws, isspace c = true := by
  refine ⟨(l.reverse.takeWhile isspace).reverse, ?_, ?_⟩
  · have h := List.takeWhile_append_dropWhile isspace l.reverse
    have h2 := congrArg List.reverse h
    rw [List.reverse_append, List.reverse_reverse] at h2
    exact h2.symm
  · intro c hc
    exact List.mem_takeWhile_imp (List.mem_reverse.mp hc)

/-- A line that does not end in whitespace is left as it is. -/
theorem rtrim_eq_self (x : List Char) (hx : ∀ h : x ≠ [], isspace (x.getLast h) = false) :
    rtrim x = x := by
  rw [rtrim_eq_rdropWhile, List.rdropWhile_eq_self_iff]
  intro h
  rw [hx h]
  decide

/-! ### The claims on ordinals, end of stream, missing headers and the trim -/

/-- C11 as stated fails. With the content line `junk` in front of the FASTA
file `>r1 / ACGT` the first call returns an empty read in which all three
lines are accumulated, and no call returns the record; the file alone gives
the record with ordinal 1. The same happens in front of a FASTQ record. -/
theorem nextread_leading_content_differs :
    (nextreads 2 (Reader.fresh [">r1".toList, "ACGT".toList])).1 =
      [Read.mk1 1 Format.FASTA ">r1" "ACGT" "", Read.empty] ∧
    (nextreads 2 (Reader.fresh (["junk".toList] ++ [">r1".toList, "ACGT".toList]))).1 =
      [{ Read.empty with sequence := "junk>r1ACGT".toList }, Read.empty] ∧
    (nextreads 2 (Reader.fresh (["junk".toList] ++ [">r1".toList, "ACGT".toList]))).1 ≠
      (nextreads 2 (Reader.fresh [">r1".toList, "ACGT".toList])).1 ∧
    (nextreads 2 (Reader.fresh (["junk".toList] ++ ["@r1".toList, "ACGT".toList, "+".toList,
      "FFFF".toList]))).1 ≠
      (nextreads 2 (Reader.fresh ["@r1".toList, "ACGT".toList, "+".toList, "FFFF".toList])).1 := by
  decide

/-- C12 (dense ordinals). For every reader, a call of `nextread` that returns a
read that is not empty increases `read_count` by one and the ordinal of the
read is the new value; a call that returns an empty read leaves `read_count`
as it is. Hence, for every input and every number of calls on a fresh
reader, the ordinals of the reads that are not empty are, in call order,
1, 2, ... up to the final `read_count`. -/
theorem dense_ordinals (rd : Reader) (l : List Line) (n : Nat) :
    ((nextread rd).1.isEmpty = false →
      (nextread rd).2.read_count = rd.read_count + 1 ∧
      (nextread rd).1.id = (nextread rd).2.read_count) ∧
    ((nextread rd).1.isEmpty = true → (nextread rd).2.read_count = rd.read_count) ∧
    ((nextreads n (Reader.fresh l)).1.filter (fun r => !r.isEmpty)).map Read.id =
      List.range' 1 (nextreads n (Reader.fresh l)).2.read_count := by
  have h := nextreadLoop_read_count rd.ifs rd Read.empty 0
  refine ⟨?_, h.2, ?_⟩
  · intro he
    obtain ⟨h1, h2⟩ := h.1 he
    exact ⟨h1, h2.trans h1.symm⟩
  · have h3 := (nextreads_ordinals n (Reader.fresh l)).2
    simpa [Reader.fresh] using h3

/-- C12 at a concrete input: four calls on the five lines
`>r1 / ACGT / >r2 / TTTT / >r3`. -/
theorem dense_ordinals_witness :
    ((nextreads 4 (Reader.fresh [">r1".toList, "ACGT".toList, ">r2".toList, "TTTT".toList,
      ">r3".toList])).1.filter (fun r => !r.isEmpty)).map Read.id = [1, 2] :=
  ((dense_ordinals (Reader.fresh []) [">r1".toList, "ACGT".toList, ">r2".toList,
    "TTTT".toList, ">r3".toList] 4).2.2).trans (by decide)

/-- C13 (header/format agreement), evaluated on the well-formed FASTQ file of
two records `@r1 / ACGT / + / FFFF / @r2 / TTTT / + / GGGG`. The second call
returns a read that is not empty, of format FASTQ, whose header is the
sequence line `TTTT` of record 2: it does not start with `@`. -/
theorem nextread_fastq_second_header_no_marker :
    ((nextreads 2 (Reader.fresh fastqTwo)).1.map
      (fun r => (r.isEmpty, r.format, r.header))) =
      [(false, Format.FASTQ, "@r1".toList), (false, Format.FASTQ, "TTTT".toList)] ∧
    ((nextreads 2 (Reader.fresh fastqTwo)).1.map (fun r => char0 r.header)) = ['@', 'T'] := by
  decide

/-- C14 (end-of-stream finalisation). When the end of the stream is reported
with a record in progress, the call returns that record as accumulated, with
ordinal `read_count + 1`, and sets `is_done`; with no record in progress it
returns the read as it is (empty) and assigns nothing. In both cases every
later call returns the empty read, and `read_count` stays as that call left
it. -/
theorem end_of_stream_finalisation (rd : Reader) (read : Read) (count : Int) (n : Nat) :
    (read.isEmpty = false →
      nextreadLoop rd read count [] =
        (read.init (rd.read_count + 1),
         { rd with ifs := [], line_count := rd.line_count + 1,
                   read_count := rd.read_count + 1, is_done := true })) ∧
    (read.isEmpty = true →
      nextreadLoop rd read count [] =
        (read, { rd with ifs := [], line_count := rd.line_count + 1 })) ∧
    (nextreads n (nextreadLoop rd read count []).2).1 = List.replicate n Read.empty ∧
    (nextreads n (nextreadLoop rd read count []).2).2.read_count =
      (nextreadLoop rd read count []).2.read_count := by
  have h := nextreads_of_ifs_nil n (nextreadLoop rd read count []).2
    (nextreadLoop_nil_ifs rd read count)
  refine ⟨?_, ?_, h.1, h.2.1⟩
  · intro he
    simp [nextreadLoop, he]
  · intro he
    simp [nextreadLoop, he]

/-- C14 at a concrete input: the one-record file `>r1 / ACGT`. The first call
ends at the end of the stream with the record in progress and returns it with
ordinal 1 and `is_done` set; the two calls after it return the empty read. -/
theorem end_of_stream_finalisation_witness :
    nextread (Reader.fresh [">r1".toList, "ACGT".toList]) =
      (Read.mk1 1 Format.FASTA ">r1" "ACGT" "",
       { ifs := [], line_count := 3, read_count := 1, is_done := true, isFastq := false,
         isFasta := true }) ∧
    (nextreads 2 (nextread (Reader.fresh [">r1".toList, "ACGT".toList])).2).1 =
      [Read.empty, Read.empty] :=
  ⟨((by decide : nextread (Reader.fresh [">r1".toList, "ACGT".toList]) =
        nextreadLoop
          { ifs := [">r1".toList, "ACGT".toList], line_count := 2, read_count := 0,
            is_done := false, isFastq := false, isFasta := true }
          (Read.mk1 0 Format.FASTA ">r1" "ACGT" "") 2 [])).trans
      (((end_of_stream_finalisation
          { ifs := [">r1".toList, "ACGT".toList], line_count := 2, read_count := 0,
            is_done := false, isFastq := false, isFasta := true }
          (Read.mk1 0 Format.FASTA ">r1" "ACGT" "") 2 2).1 rfl).trans (by decide)),
   by decide⟩

/-- C15 (a file with no header never produces a record). If no line of the
stream starts with `>` or `@`, then every read returned by any number of
`nextread` calls on a fresh reader is empty and `read_count` stays 0, and
`loadReadByIdx` called with any empty read returns false. -/
theorem no_header_no_record (l : List Line) (hl : ∀ x ∈ l, isHeaderLine x = false) :
    (∀ n, (∀ r ∈ (nextreads n (Reader.fresh l)).1, r.isEmpty = true) ∧
      (nextreads n (Reader.fresh l)).2.read_count = 0) ∧
    (∀ read : Read, read.isEmpty = true → (loadReadByIdx l read).1 = false) := by
  constructor
  · intro n
    exact nextreads_no_header n (Reader.fresh l) rfl rfl hl
  · intro read he
    have hc : l.countP isHeaderLine = 0 := by
      rw [List.countP_eq_zero]
      intro x hx
      rw [hl x hx]
      decide
    unfold loadReadByIdx
    rw [loadLoop_not_found l _ he (by simp [hc])]

/-- C15 at a concrete input: the two lines `junk / ACGT`. -/
theorem no_header_no_record_witness :
    (∀ x ∈ ["junk".toList, "ACGT".toList], isHeaderLine x = false) ∧
    (∀ r ∈ (nextreads 3 (Reader.fresh ["junk".toList, "ACGT".toList])).1, r.isEmpty = true) ∧
    (loadReadByIdx ["junk".toList, "ACGT".toList] (Read.target 0)).1 = false :=
  have hw : ∀ x ∈ ["junk".toList, "ACGT".toList], isHeaderLine x = false := by decide
  ⟨hw, ((no_header_no_record _ hw).1 3).1, (no_header_no_record _ hw).2 _ rfl⟩

/-- C18 (not found leaves the read untouched). If `loadReadByIdx` is called with
an empty read whose id is at least the number of header lines of the stream
(lines starting with `>` or `@`), it returns false and the read is exactly as
it was before the call. -/
theorem loadReadByIdx_not_found (l : List Line) (read : Read) (he : read.isEmpty = true)
    (hk : l.countP isHeaderLine ≤ read.id) : loadReadByIdx l read = (false, read) := by
  unfold loadReadByIdx
  rw [loadLoop_not_found l _ he (by simpa using hk)]

/-- C18 at a concrete input: index 2 in the two-record file
`>r1 / ACGT / >r2 / TTTT`. -/
theorem loadReadByIdx_not_found_witness :
    fastaTwo.countP isHeaderLine ≤ (Read.target 2).id ∧
    loadReadByIdx fastaTwo (Read.target 2) = (false, Read.target 2) :=
  ⟨by decide, loadReadByIdx_not_found fastaTwo (Read.target 2) rfl (by decide)⟩

/-- C16 (the trimmer). For every line `l` the right trim of `reader.cpp` returns a
prefix of `l` that does not end in whitespace, and every prefix of `l` that
does not end in whitespace is a prefix of it (it is the longest one); what
it removes is whitespace only; it is the empty string when the line is all
whitespace; whenever `l` is `x` followed by whitespace and `x` does not end
in whitespace the result is `x`, whatever leading or interior whitespace `x`
holds; and trimming is idempotent. -/
theorem rtrim_longest_trimmed (l : Line) :
    rtrim l <+: l ∧
    (∀ h : rtrim l ≠ [], isspace ((rtrim l).getLast h) = false) ∧
    (∀ p : Line, p <+: l → (∀ h : p ≠ [], isspace (p.getLast h) = false) → p <+: rtrim l) ∧
    (∃ ws, l = rtrim l ++ ws ∧ ∀ c ∈ ws, isspace c = true) ∧
    ((∀ c ∈ l, isspace c = true) → rtrim l = []) ∧
    (∀ x ws : Line, l = x ++ ws → (∀ h : x ≠ [], isspace (x.getLast h) = false) →
      (∀ c ∈ ws, isspace c = true) → rtrim l = x) ∧
    rtrim (rtrim l) = rtrim l := by
  have hpre : rtrim l <+: l := List.rdropWhile_prefix isspace l
  obtain ⟨ws, hws, hall⟩ := rtrim_append_removed l
  refine ⟨hpre, ?_, ?_, ⟨ws, hws, hall⟩, ?_, ?_, List.rdropWhile_idempotent isspace l⟩
  · intro h
    have := List.rdropWhile_last_not isspace l h
    simpa using this
  · intro p hp hlast
    rcases List.prefix_or_prefix_of_prefix hp hpre with h | ⟨t, ht⟩
    · exact h
    · obtain ⟨u, hu⟩ := hp
      by_cases htn : t = []
      · rw [htn, List.append_nil] at ht
        rw [ht]
      · have hpn : p ≠ [] := by
          rw [← ht]
          simp [htn]
        have h1 := hlast hpn
        have h2 : p.getLast hpn = t.getLast htn := by
          have hne : rtrim l ++ t ≠ [] := by simp [htn]
          have h3 : (rtrim l ++ t).getLast hne = t.getLast htn :=
            List.getLast_append_of_ne_nil htn
          simp only [← ht]
          exact h3
        have h4 : t ++ u = ws := by
          have h5 : rtrim l ++ (t ++ u) = rtrim l ++ ws := by
            rw [← List.append_assoc, ht, hu]
            exact hws
          exact List.append_cancel_left h5
        have h6 : t.getLast htn ∈ ws := by
          rw [← h4]
          exact List.mem_append_left u (List.getLast_mem htn)
        rw [h2, hall _ h6] at h1
        exact absurd h1 (by decide)
  · intro h
    rw [rtrim_eq_rdropWhile, List.rdropWhile_eq_nil_iff]
    exact h
  · intro x ws2 hl hx hw
    rw [hl, rtrim_append_ws x ws2 hw]
    exact rtrim_eq_self x hx

/-- C16 at concrete inputs: a line with leading, interior and trailing
whitespace, and a line of whitespace only. -/
theorem rtrim_longest_trimmed_witness :
    rtrim " A C \t\r".toList = " A C".toList ∧ rtrim " \t\r".toList = [] :=
  ⟨(rtrim_longest_trimmed " A C \t\r".toList).2.2.2.2.2.1 " A C".toList " \t\r".toList rfl
      (fun _ => rfl) (by decide),
   (rtrim_longest_trimmed " \t\r".toList).2.2.2.2.1 (by decide)⟩

/-! ### FASTA files read by successive calls -/

/-- In FASTA mode a line that does not start with `>` is appended, trimmed, to
the sequence of the read, whether a record is in progress or not. -/
theorem nextreadBody_fasta_content (rd : Reader) (read : Read) (count : Int) (line : Line)
    (hm : FastaMode rd) (hc : char0 line ≠ FASTA_HEADER_START) :
    ∃ rd1 count1, FastaMode rd1 ∧ rd1.read_count = rd.read_count ∧
      nextreadBody rd read count line =
        Step.next rd1 { read with sequence := read.sequence ++ rtrim line } count1 := by
  obtain ⟨ha, hq, hl⟩ := hm
  by_cases hn : line = []
  · refine ⟨rd, count, ⟨ha, hq, hl⟩, rfl, ?_⟩
    rw [hn, nextreadBody_nil]
    cases read
    simp [rtrim]
  · have hc2 : ¬ char0 (rtrim line) = FASTA_HEADER_START := fun h =>
      hc ((char0_rtrim_eq_iff line FASTA_HEADER_START (by decide) (by decide)).mp h)
    refine ⟨{ rd with line_count := rd.line_count + 1 }, count + 1,
      ⟨ha, hq, Nat.succ_ne_zero _⟩, rfl, ?_⟩
    simp [nextreadBody, isEmpty_false_of_ne_nil hn, hc2, ha, hq, hl]

theorem nextreadLoop_fasta_content (body : List Line) (rest : List Line)
    (hb : ∀ x ∈ body, char0 x ≠ FASTA_HEADER_START) :
    ∀ (rd : Reader) (read : Read) (count : Int), FastaMode rd →
      ∃ rd1 count1, FastaMode rd1 ∧ rd1.read_count = rd.read_count ∧
        nextreadLoop rd read count (body ++ rest) =
          nextreadLoop rd1
            { read with sequence := read.sequence ++ (body.map rtrim).flatten } count1 rest := by
  induction body with
  | nil =>
    intro rd read count hm
    refine ⟨rd, count, hm, rfl, ?_⟩
    cases read
    simp
  | cons x t ih =>
    intro rd read count hm
    obtain ⟨rd1, count1, hm1, hr1, hb1⟩ :=
      nextreadBody_fasta_content rd read count x hm (hb x (List.mem_cons_self x t))
    obtain ⟨rd2, count2, hm2, hr2, hb2⟩ :=
      ih (fun y hy => hb y (List.mem_cons_of_mem x hy)) rd1
        { read with sequence := read.sequence ++ rtrim x } count1 hm1
    refine ⟨rd2, count2, hm2, hr2.trans hr1, ?_⟩
    rw [List.cons_append, nextreadLoop, hb1]
    simp only []
    rw [hb2]
    simp [List.append_assoc]

/-- A line starting with `>`, met with no record in progress, in FASTA mode or
as the first line of the stream that is not empty: it becomes the header of a
new record, and what the read held is cleared. -/
theorem nextreadBody_fasta_header_start (rd : Reader) (read : Read) (count : Int) (line : Line)
    (hm : FastaMode rd ∨ rd.line_count = 0) (hh : char0 line = FASTA_HEADER_START)
    (he : read.isEmpty = true) :
    ∃ rd1, FastaMode rd1 ∧ rd1.read_count = rd.read_count ∧
      nextreadBody rd read count line =
        Step.next rd1
          { id := 0, isEmpty := false, format := Format.FASTA, header := rtrim line,
            sequence := [], quality := [] } 1 := by
  have hne : line.isEmpty = false :=
    isEmpty_false_of_ne_nil (ne_nil_of_char0 hh (by decide))
  have h1 : char0 (rtrim line) = FASTA_HEADER_START :=
    (char0_rtrim_eq_iff line FASTA_HEADER_START (by decide) (by decide)).mpr hh
  have h2 : (FASTA_HEADER_START == FASTQ_HEADER_START) = false := by decide
  rcases hm with ⟨ha, hq, hl⟩ | hl
  · refine ⟨{ rd with line_count := rd.line_count + 1 }, ⟨ha, hq, Nat.succ_ne_zero _⟩, rfl, ?_⟩
    simp [nextreadBody, hne, h1, ha, hq, hl, he, Read.clear, Read.empty]
  · refine ⟨{ rd with line_count := 1, isFastq := false, isFasta := true },
      ⟨rfl, rfl, by simp⟩, rfl, ?_⟩
    simp [nextreadBody, hne, h1, h2, hl, he, Read.clear, Read.empty]

/-- A line starting with `>`, met in FASTA mode with a record in progress: the
record is given the next ordinal and the call ends. The line is not kept. -/
theorem nextreadBody_fasta_header_break (rd : Reader) (read : Read) (count : Int) (line : Line)
    (hm : FastaMode rd) (hh : char0 line = FASTA_HEADER_START) (he : read.isEmpty = false) :
    nextreadBody rd read count line =
      Step.brk { rd with line_count := rd.line_count + 1, read_count := rd.read_count + 1 }
        (read.init (rd.read_count + 1)) := by
  obtain ⟨ha, hq, hl⟩ := hm
  have hne : line.isEmpty = false :=
    isEmpty_false_of_ne_nil (ne_nil_of_char0 hh (by decide))
  have h1 : char0 (rtrim line) = FASTA_HEADER_START :=
    (char0_rtrim_eq_iff line FASTA_HEADER_START (by decide) (by decide)).mpr hh
  simp [nextreadBody, hne, h1, ha, hq, hl, he]

/-- The header and the sequence lines of a FASTA record, read with no record
in progress: the record is in progress afterwards, not yet numbered. -/
theorem nextreadLoop_fasta_record (r : Line × List Line) (rest : List Line)
    (hr : char0 r.1 = FASTA_HEADER_START ∧ ∀ x ∈ r.2, char0 x ≠ FASTA_HEADER_START)
    (rd : Reader) (read : Read) (count : Int)
    (hm : FastaMode rd ∨ rd.line_count = 0) (he : read.isEmpty = true) :
    ∃ rd2 count2, FastaMode rd2 ∧ rd2.read_count = rd.read_count ∧
      nextreadLoop rd read count (r.1 :: (r.2 ++ rest)) =
        nextreadLoop rd2 (recordRead 0 r) count2 rest := by
  obtain ⟨rd1, hm1, hr1, hb1⟩ := nextreadBody_fasta_header_start rd read count r.1 hm hr.1 he
  obtain ⟨rd2, count2, hm2, hr2, hb2⟩ :=
    nextreadLoop_fasta_content r.2 rest hr.2 rd1
      { id := 0, isEmpty := false, format := Format.FASTA, header := rtrim r.1,
        sequence := [], quality := [] } 1 hm1
  refine ⟨rd2, count2, hm2, hr2.trans hr1, ?_⟩
  rw [nextreadLoop, hb1]
  simp only []
  rw [hb2]
  simp [recordRead]

/-- One call of `nextread` on a FASTA stream that stands at the sequence lines
`seqs` of a record whose header is gone (none at the start of the file),
followed by the records `recs`: with no record left the read returned is
empty; otherwise the first record of `recs` is returned with the next
ordinal, and the stream is left behind the header of the second one. -/
theorem nextread_fasta_call (rd : Reader) (seqs : List Line) (recs : List (Line × List Line))
    (hwf : ∀ r ∈ recs, char0 r.1 = FASTA_HEADER_START ∧ ∀ x ∈ r.2, char0 x ≠ FASTA_HEADER_START)
    (hseqs : ∀ x ∈ seqs, char0 x ≠ FASTA_HEADER_START)
    (hm : FastaMode rd ∨ (rd.line_count = 0 ∧ seqs = []))
    (hifs : rd.ifs = seqs ++ fastaFile recs) :
    (recs = [] → (nextread rd).1.isEmpty = true ∧ (nextread rd).2.ifs = []) ∧
    (∀ r, recs = [r] →
      (nextread rd).1 = recordRead (rd.read_count + 1) r ∧ (nextread rd).2.ifs = []) ∧
    (∀ r r2 t, recs = r :: r2 :: t →
      (nextread rd).1 = recordRead (rd.read_count + 1) r ∧
      (nextread rd).2.read_count = rd.read_count + 1 ∧
      FastaMode (nextread rd).2 ∧ (nextread rd).2.ifs = r2.2 ++ fastaFile t) := by
  have hstart : ∃ rd1 read1 count1, (FastaMode rd1 ∨ rd1.line_count = 0) ∧
      rd1.read_count = rd.read_count ∧ read1.isEmpty = true ∧
      nextread rd = nextreadLoop rd1 read1 count1 (fastaFile recs) := by
    rcases hm with hm | ⟨hl, hs⟩
    · obtain ⟨rd1, count1, hm1, hr1, hb1⟩ :=
        nextreadLoop_fasta_content seqs (fastaFile recs) hseqs rd Read.empty 0 hm
      refine ⟨rd1,
        { Read.empty with sequence := Read.empty.sequence ++ (seqs.map rtrim).flatten },
        count1, Or.inl hm1, hr1, rfl, ?_⟩
      unfold nextread
      rw [hifs, hb1]
    · refine ⟨rd, Read.empty, 0, Or.inr hl, rfl, rfl, ?_⟩
      unfold nextread
      rw [hifs, hs]
      rfl
  obtain ⟨rd1, read1, count1, hm1, hr1, he1, hcall⟩ := hstart
  refine ⟨?_, ?_, ?_⟩
  · intro hrecs
    rw [hcall, hrecs]
    simp [fastaFile, nextreadLoop, he1]
  · intro r hrecs
    have hr := hwf r (by rw [hrecs]; exact List.mem_singleton_self r)
    obtain ⟨rd2, count2, _, hr2, hb2⟩ :=
      nextreadLoop_fasta_record r [] hr rd1 read1 count1 hm1 he1
    rw [hcall, hrecs]
    simp only [fastaFile]
    rw [hb2]
    simp [nextreadLoop, recordRead, Read.init, hr2, hr1]
  · intro r r2 t hrecs
    have hr := hwf r (by rw [hrecs]; exact List.mem_cons_self r _)
    have hr2 := hwf r2 (by rw [hrecs]; exact List.mem_cons_of_mem r (List.mem_cons_self r2 t))
    obtain ⟨rd2, count2, hm2, hrc2, hb2⟩ :=
      nextreadLoop_fasta_record r (r2.1 :: (r2.2 ++ fastaFile t)) hr rd1 read1 count1 hm1 he1
    rw [hcall, hrecs]
    simp only [fastaFile]
    rw [hb2, nextreadLoop,
      nextreadBody_fasta_header_break rd2 (recordRead 0 r) count2 r2.1 hm2 hr2.1 rfl]
    obtain ⟨ha, hq, _⟩ := hm2
    simp [recordRead, Read.init, hrc2, hr1, FastaMode, ha, hq]

/-- Successive calls on a FASTA stream: call `j + 1` returns the record at
index `2 * j` of the records still in front, with the next ordinal, and an
empty read when there is no such record. -/
theorem nextreads_fasta (n : Nat) :
    ∀ (recs : List (Line × List Line)) (seqs : List Line) (rd : Reader) (j : Nat),
      (∀ r ∈ recs, char0 r.1 = FASTA_HEADER_START ∧ ∀ x ∈ r.2, char0 x ≠ FASTA_HEADER_START) →
      (∀ x ∈ seqs, char0 x ≠ FASTA_HEADER_START) →
      (FastaMode rd ∨ (rd.line_count = 0 ∧ seqs = [])) →
      rd.ifs = seqs ++ fastaFile recs → j < n →
      (∀ r, recs[2 * j]? = some r →
        (nextreads n rd).1[j]? = some (recordRead (rd.read_count + j + 1) r)) ∧
      (recs.length ≤ 2 * j → ∃ x, (nextreads n rd).1[j]? = some x ∧ x.isEmpty = true) := by
  induction n with
  | zero => intro _ _ _ j _ _ _ _ hj; exact absurd hj (Nat.not_lt_zero j)
  | succ n ih =>
    intro recs seqs rd j hwf hseqs hm hifs hj
    obtain ⟨h0, h1, h2⟩ := nextread_fasta_call rd seqs recs hwf hseqs hm hifs
    have hlater : (nextread rd).2.ifs = [] → ∀ i, i < n →
        ∃ x, (nextreads n (nextread rd).2).1[i]? = some x ∧ x.isEmpty = true := by
      intro hnil i hi
      refine ⟨Read.empty, ?_, rfl⟩
      rw [(nextreads_of_ifs_nil n (nextread rd).2 hnil).1, List.getElem?_replicate]
      simp [hi]
    simp only [nextreads]
    cases j with
    | zero =>
      simp only [Nat.mul_zero, List.getElem?_cons_zero, Nat.add_zero, Nat.le_zero_eq,
        List.length_eq_zero]
      constructor
      · intro r hr
        cases recs with
        | nil => simp at hr
        | cons a t =>
          have ha : a = r := by simpa using hr
          cases t with
          | nil => rw [(h1 a rfl).1, ha]
          | cons b u => rw [(h2 a b u rfl).1, ha]
      · intro hrecs
        exact ⟨_, rfl, (h0 hrecs).1⟩
    | succ j =>
      have hj2 : j < n := by omega
      rw [List.getElem?_cons_succ]
      cases recs with
      | nil =>
        refine ⟨fun r hr => by simp at hr, fun _ => hlater (h0 rfl).2 j hj2⟩
      | cons a t =>
        cases t with
        | nil =>
          refine ⟨fun r hr => ?_, fun _ => hlater (h1 a rfl).2 j hj2⟩
          have h3 : 2 * (j + 1) = (2 * j + 1) + 1 := by omega
          rw [h3, List.getElem?_cons_succ] at hr
          simp at hr
        | cons b u =>
          obtain ⟨_, hc, hmode, hi⟩ := h2 a b u rfl
          have hwf2 : ∀ r ∈ u, char0 r.1 = FASTA_HEADER_START ∧
              ∀ x ∈ r.2, char0 x ≠ FASTA_HEADER_START := fun r hr =>
            hwf r (List.mem_cons_of_mem a (List.mem_cons_of_mem b hr))
          have hb := hwf b (List.mem_cons_of_mem a (List.mem_cons_self b u))
          obtain ⟨g1, g2⟩ := ih u b.2 (nextread rd).2 j hwf2 hb.2 (Or.inl hmode) hi hj2
          have h3 : 2 * (j + 1) = (2 * j + 1) + 1 := by omega
          constructor
          · intro r hr
            rw [h3, List.getElem?_cons_succ, List.getElem?_cons_succ] at hr
            rw [g1 r hr, hc]
            congr 2
            omega
          · intro hlen
            simp only [List.length_cons] at hlen
            exact g2 (by omega)

/-- C17 (the header that ends a record is consumed). Let the file be the FASTA
records `recs`, each a header line starting with `>` followed by sequence
lines none of which starts with `>`. Then among any `n` successive calls of
`nextread` on a fresh reader, call `j + 1` returns the record at position
`2 * j + 1` of the file (index `2 * j`), as header and concatenated
sequence, with ordinal `j + 1`, whenever the file has such a record, and an
empty read otherwise: the reads that are not empty are those of the first
`ceil(N / 2)` calls, and the sequence lines of the records at even positions
are in none of them. -/
theorem fasta_every_second_record (recs : List (Line × List Line))
    (hwf : ∀ r ∈ recs, char0 r.1 = FASTA_HEADER_START ∧ ∀ x ∈ r.2, char0 x ≠ FASTA_HEADER_START)
    (n j : Nat) (hj : j < n) :
    (∀ r, recs[2 * j]? = some r →
      (nextreads n (Reader.fresh (fastaFile recs))).1[j]? = some (recordRead (j + 1) r)) ∧
    (recs.length ≤ 2 * j →
      ∃ x, (nextreads n (Reader.fresh (fastaFile recs))).1[j]? = some x ∧ x.isEmpty = true) := by
  have h := nextreads_fasta n recs [] (Reader.fresh (fastaFile recs)) j hwf
    (fun x hx => absurd hx (List.not_mem_nil x)) (Or.inr ⟨rfl, rfl⟩) rfl hj
  simpa [Reader.fresh] using h

/-- C17 at a concrete input, the three records `>r1 / AC / GT`, `>r2 / TT`,
`>r3 / GG`: the first call returns record 1, the second call returns record
3 with ordinal 2, the third call returns an empty read. -/
theorem fasta_every_second_record_witness :
    (nextreads 3 (Reader.fresh (fastaFile fastaThree))).1[0]? =
      some (Read.mk1 1 Format.FASTA ">r1" "ACGT" "") ∧
    (nextreads 3 (Reader.fresh (fastaFile fastaThree))).1[1]? =
      some (Read.mk1 2 Format.FASTA ">r3" "GG" "") ∧
    ∃ x, (nextreads 3 (Reader.fresh (fastaFile fastaThree))).1[2]? = some x ∧
      x.isEmpty = true :=
  ⟨((fasta_every_second_record fastaThree (by decide) 3 0 (by decide)).1 _ rfl).trans
      (by decide),
   ((fasta_every_second_record fastaThree (by decide) 3 1 (by decide)).1 _ rfl).trans
      (by decide),
   (fasta_every_second_record fastaThree (by decide) 3 2 (by decide)).2 (by decide)⟩

/-! ### Streams that do not start with a header line -/

/-- With both format flags off and the first line passed, no line is a header
for `nextread`: the loop goes on and nothing of this changes. -/
theorem nextreadBody_flags_off (rd : Reader) (read : Read) (count : Int) (line : Line)
    (hq : rd.isFastq = false) (ha : rd.isFasta = false) (hl : rd.line_count ≠ 0) :
    ∃ rd1 read1 count1, nextreadBody rd read count line = Step.next rd1 read1 count1 ∧
      rd1.isFastq = false ∧ rd1.isFasta = false ∧ rd1.line_count ≠ 0 ∧
      rd1.read_count = rd.read_count ∧ read1.isEmpty = read.isEmpty := by
  by_cases hn : line = []
  · rw [hn, nextreadBody_nil]
    exact ⟨rd, read, count, rfl, hq, ha, hl, rfl, rfl⟩
  · simp only [nextreadBody, isEmpty_false_of_ne_nil hn, hq, ha]
    simp [hl]
    exact ⟨_, _, ⟨rfl, rfl⟩, rfl, rfl, Nat.succ_ne_zero _, rfl, rfl⟩

theorem nextreadLoop_flags_off (l : List Line) :
    ∀ (rd : Reader) (read : Read) (count : Int), rd.isFastq = false → rd.isFasta = false →
      rd.line_count ≠ 0 → read.isEmpty = true →
      (nextreadLoop rd read count l).1.isEmpty = true ∧
      (nextreadLoop rd read count l).2.read_count = rd.read_count ∧
      (nextreadLoop rd read count l).2.ifs = [] := by
  induction l with
  | nil =>
    intro rd read count _ _ _ he
    simp [nextreadLoop, he]
  | cons x t ih =>
    intro rd read count hq ha hl he
    obtain ⟨rd1, read1, count1, hb, h1, h2, h3, h4, h5⟩ :=
      nextreadBody_flags_off rd read count x hq ha hl
    rw [nextreadLoop, hb]
    simp only []
    rw [← h4]
    exact ih rd1 read1 count1 h1 h2 h3 (by rw [h5]; exact he)

/-- The first line of the stream that is not empty, when it is no header
line: both format flags are off afterwards, for good. -/
theorem nextreadBody_first_content (rd : Reader) (read : Read) (count : Int) (line : Line)
    (hl : rd.line_count = 0) (hn : line ≠ []) (hh : isHeaderLine line = false) :
    ∃ rd1 read1 count1, nextreadBody rd read count line = Step.next rd1 read1 count1 ∧
      rd1.isFastq = false ∧ rd1.isFasta = false ∧ rd1.line_count ≠ 0 ∧
      rd1.read_count = rd.read_count ∧ read1.isEmpty = read.isEmpty := by
  have ht := headerTest_rtrim line
  rw [hh, Bool.or_eq_false_iff] at ht
  obtain ⟨h1, h2⟩ := ht
  simp only [nextreadBody, isEmpty_false_of_ne_nil hn, h1, h2, hl]
  simp
  exact ⟨_, _, ⟨rfl, rfl⟩, rfl, rfl, by simp, rfl, rfl⟩

/-- C11, amended. Leading content is not rejected, and it is not passed over
either: `nextread` decides the format on the first line that is not empty.
If that line `c` starts neither with `>` nor with `@`, then whatever follows
it (in particular a well-formed FASTA or FASTQ file), every read returned by
any number of calls on a fresh reader is empty and `read_count` stays 0: no
record is returned, so the leading lines are in no returned record. -/
theorem leading_content_no_record (b : List Line) (c : Line) (rest : List Line) (n : Nat)
    (hb : ∀ x ∈ b, x = []) (hc : c ≠ []) (hh : isHeaderLine c = false) :
    (∀ r ∈ (nextreads n (Reader.fresh (b ++ c :: rest))).1, r.isEmpty = true) ∧
    (nextreads n (Reader.fresh (b ++ c :: rest))).2.read_count = 0 := by
  cases n with
  | zero => exact ⟨fun r hr => absurd hr (List.not_mem_nil r), rfl⟩
  | succ n =>
    have hcall : (nextread (Reader.fresh (b ++ c :: rest))).1.isEmpty = true ∧
        (nextread (Reader.fresh (b ++ c :: rest))).2.read_count = 0 ∧
        (nextread (Reader.fresh (b ++ c :: rest))).2.ifs = [] := by
      obtain ⟨rd1, read1, count1, hb1, h1, h2, h3, h4, h5⟩ :=
        nextreadBody_first_content (Reader.fresh (b ++ c :: rest)) Read.empty 0 c rfl hc hh
      have h6 := nextreadLoop_flags_off rest rd1 read1 count1 h1 h2 h3 (by rw [h5]; rfl)
      unfold nextread
      simp only [Reader.fresh] at hb1 ⊢
      rw [nextreadLoop_blanks b hb, nextreadLoop, hb1]
      simp only []
      rw [h4] at h6
      exact h6
    obtain ⟨h1, h2, h3⟩ := hcall
    obtain ⟨h4, h5, _⟩ := nextreads_of_ifs_nil n (nextread (Reader.fresh (b ++ c :: rest))).2 h3
    simp only [nextreads]
    refine ⟨?_, by rw [h5]; exact h2⟩
    intro r hr
    rcases List.mem_cons.mp hr with h | h
    · rw [h]; exact h1
    · rw [h4] at h
      rw [List.eq_of_mem_replicate h]
      rfl

/-- C11 amended, at a concrete input: the line `junk` in front of the two-record
FASTA file. -/
theorem leading_content_no_record_witness :
    "junk".toList ≠ [] ∧ isHeaderLine "junk".toList = false ∧
    (∀ r ∈ (nextreads 3 (Reader.fresh ("junk".toList :: fastaTwo))).1, r.isEmpty = true) ∧
    (nextreads 3 (Reader.fresh ("junk".toList :: fastaTwo))).2.read_count = 0 :=
  ⟨by decide, by decide,
   leading_content_no_record [] "junk".toList fastaTwo 3 (by simp) (by decide) (by decide)⟩

end Sortmerna
